import Mathlib
set_option autoImplicit false

namespace Vicis

/-! Characterisation of the insertion helpers on success. -/

namespace Spl

/-- Association-list lookup keyed by `Nat`: the model of arena indexing and
hash-map lookup (`FxHashMap`) used throughout the machine-function state. -/
def alookup {α : Type} (k : Nat) : List (Nat × α) → Option α
  | [] => none
  | p :: ps => if p.1 = k then some p.2 else alookup k ps

/-- The part of a machine instruction's payload the spiller observes.
`store`/`load` record the stack slot of the spill/reload instructions that
`store_vreg_to_slot` / `load_from_slot` build; pre-existing instructions are
`plain`. -/
inductive MInstKind where
  | plain
  | store (slot : Nat)
  | load (slot : Nat)
deriving DecidableEq, Repr

/-- A machine instruction as the spiller sees it: parent block, the virtual
registers it writes (`defs`) and reads (`uses`), whether the target reports it
as a copy (`InstructionData::is_copy`), and its payload kind.

Modelled from the spec: the target instruction-info capabilities
(`is_copy`, operand substitution, `store_vreg_to_slot`, `load_from_slot`) are
target code not in the snapshot; per the spec a vreg user records
`{inst_id, read?, write?}`, so operands are modelled as read/write vreg
lists. -/
structure MInst where
  parent : Nat
  defs : List Nat
  uses : List Nat
  isCopy : Bool
  kind : MInstKind
deriving DecidableEq, Repr

/-- Machine-function state threaded through the spiller: the instruction
arena, the per-block instruction layout, fresh-id counters, the vreg type
registry (`true` = the type `is_i32`), and the stack-slot counter. -/
structure MFunction where
  insts : List (Nat × MInst)
  layout : List (Nat × List Nat)
  nextInstId : Nat
  nextVReg : Nat
  vregTys : List (Nat × Bool)
  numSlots : Nat
deriving DecidableEq, Repr

/-- Liveness state: program points per instruction (`Liveness::inst_to_pp`)
and the set of vregs that currently have a computed live range. -/
structure LivenessState where
  instToPP : List (Nat × Nat)
  ranges : List Nat
deriving DecidableEq, Repr

/-- The ways the spiller can abort: a failed `assert!`, an `unwrap()` of
`None` / missing map key, and the explicit `panic!("invalid")` for more than
two defining users. -/
inductive SpillPanic where
  | assertFailed
  | unwrapFailed
  | invalid
deriving DecidableEq, Repr

/-- `Option::unwrap` / map indexing: `none` becomes an aborting panic. -/
def toPanic {α : Type} : Option α → Except SpillPanic α
  | some a => .ok a
  | none => .error .unwrapFailed

def instGet (f : MFunction) (i : Nat) : Option MInst :=
  alookup i f.insts

def setInst (f : MFunction) (i : Nat) (d : MInst) : MFunction :=
  { f with insts := f.insts.map fun p => if p.1 = i then (i, d) else p }

/-- Ids of the instructions whose vreg-user record for `r` has `write = true`
(`vreg_users.get(vreg)` filtered on `user.write`), in arena order. -/
def writeUsers (f : MFunction) (r : Nat) : List Nat :=
  (f.insts.filter fun p => decide (r ∈ p.2.defs)).map Prod.fst

/-- Ids of the instructions whose vreg-user record for `r` has `read = true`. -/
def readUsers (f : MFunction) (r : Nat) : List Nat :=
  (f.insts.filter fun p => decide (r ∈ p.2.uses)).map Prod.fst

/-- Replace vreg `r` by `n` in a vreg list (operand substitution). -/
def substVReg (l : List Nat) (r n : Nat) : List Nat :=
  l.map fun v => if v = r then n else v

/-- `Instruction::replace_vreg`: rewrite every occurrence of `r` in the
instruction's operands to `n`. -/
def replaceVReg (d : MInst) (r n : Nat) : MInst :=
  { d with defs := substVReg d.defs r n, uses := substVReg d.uses r n }

/-- Register a fresh vreg of type `ty` in the vreg registry. -/
def bumpVReg (f : MFunction) (ty : Bool) : MFunction :=
  { f with nextVReg := f.nextVReg + 1,
           vregTys := f.vregTys ++ [(f.nextVReg, ty)] }

/-- `VRegs::create_from`: allocate a fresh vreg with the same type as `r`
(panics when `r` has no registered type, as `type_for` indexes a map). -/
def createFrom (f : MFunction) (r : Nat) : Option (MFunction × Nat) :=
  match alookup r f.vregTys with
  | none => none
  | some ty => some (bumpVReg f ty, f.nextVReg)

/-- `store_vreg_to_slot(function, vreg, slot, block)`: a machine store of
vreg `n` into stack slot `slot`, placed in `block`. -/
def storeVRegToSlot (n slot block : Nat) : MInst :=
  ⟨block, [], [n], false, .store slot⟩

/-- `load_from_slot(function, vreg, slot, block)`: a machine load from the
slot into vreg `n`. -/
def loadFromSlot (n slot block : Nat) : MInst :=
  ⟨block, [n], [], false, .load slot⟩

/-- `Data::create_inst`: allocate a fresh instruction id in the arena. -/
def createInst (f : MFunction) (d : MInst) : MFunction × Nat :=
  ({ f with insts := f.insts ++ [(f.nextInstId, d)],
            nextInstId := f.nextInstId + 1 }, f.nextInstId)

/-- The element directly after the first occurrence of `x`, if any. -/
def listNextAfter (x : Nat) : List Nat → Option Nat
  | a :: b :: rest => if a = x then some b else listNextAfter x (b :: rest)
  | _ => none

/-- The element directly before the first occurrence of `x` in the tail. -/
def listPrevBefore (x : Nat) : List Nat → Option Nat
  | a :: b :: rest => if b = x then some a else listPrevBefore x (b :: rest)
  | _ => none

/-- Insert `y` directly after the first occurrence of `x`. -/
def listInsertAfter (x y : Nat) : List Nat → List Nat
  | [] => []
  | a :: rest => if a = x then a :: y :: rest else a :: listInsertAfter x y rest

/-- Insert `y` directly before the first occurrence of `x`. -/
def listInsertBefore (x y : Nat) : List Nat → List Nat
  | [] => []
  | a :: rest => if a = x then y :: a :: rest else a :: listInsertBefore x y rest

/-- The instruction sequence of block `b` in layout order. -/
def blockLayout (f : MFunction) (b : Nat) : List Nat :=
  (alookup b f.layout).getD []

/-- The layout block containing instruction `i`.

Modelled from the spec: the codegen `Layout` chains instructions within each
block (§3 C5), so the successor/predecessor of an instruction is looked up in
the block holding it and block boundaries yield `None`. -/
def containingBlock (f : MFunction) (i : Nat) : Option (Nat × List Nat) :=
  f.layout.find? fun p => decide (i ∈ p.2)

/-- `Layout::next_inst_of`. -/
def next_inst_of (f : MFunction) (i : Nat) : Option Nat :=
  (containingBlock f i).bind fun p => listNextAfter i p.2

/-- `Layout::prev_inst_of`. -/
def prev_inst_of (f : MFunction) (i : Nat) : Option Nat :=
  (containingBlock f i).bind fun p => listPrevBefore i p.2

/-- `Layout::insert_inst_after(after, inst, block)`. -/
def layoutInsertAfter (f : MFunction) (afterI newI block : Nat) : MFunction :=
  { f with layout := f.layout.map fun p =>
      if p.1 = block then (p.1, listInsertAfter afterI newI p.2) else p }

/-- `Layout::insert_inst_before(before, inst, block)`. -/
def layoutInsertBefore (f : MFunction) (beforeI newI block : Nat) : MFunction :=
  { f with layout := f.layout.map fun p =>
      if p.1 = block then (p.1, listInsertBefore beforeI newI p.2) else p }

/-- Modelled from the spec: `ProgramPoint::between(a, b)` (liveness module
not in the snapshot) returns a point strictly between `a` and `b` whenever
the gap admits one, and `None` otherwise (§4.3). -/
def ppBetween (a b : Nat) : Option Nat :=
  if a + 1 < b then some ((a + b) / 2) else none

/-- Record a program point for a (fresh) instruction (`HashMap::insert`). -/
def setPP (lv : LivenessState) (i pp : Nat) : LivenessState :=
  { lv with instToPP := (i, pp) :: lv.instToPP.filter fun p => p.1 ≠ i }

/-- `Spiller::insert_inst_after`: all four lookups (`inst_to_pp[&after]`,
`next_inst_of(after).unwrap()`, `inst_to_pp[&next]`, `between(..).unwrap()`)
panic on failure, modelled as `none`. -/
def insert_inst_after (f : MFunction) (lv : LivenessState)
    (afterI newI block : Nat) : Option (MFunction × LivenessState) :=
  match alookup afterI lv.instToPP with
  | none => none
  | some afterPP =>
    match next_inst_of f afterI with
    | none => none
    | some nextAfter =>
      match alookup nextAfter lv.instToPP with
      | none => none
      | some nextAfterPP =>
        match ppBetween afterPP nextAfterPP with
        | none => none
        | some instPP =>
          some (layoutInsertAfter f afterI newI block, setPP lv newI instPP)

/-- `Spiller::insert_inst_before`, symmetric to `insert_inst_after`. -/
def insert_inst_before (f : MFunction) (lv : LivenessState)
    (beforeI newI block : Nat) : Option (MFunction × LivenessState) :=
  match alookup beforeI lv.instToPP with
  | none => none
  | some beforePP =>
    match prev_inst_of f beforeI with
    | none => none
    | some prevBefore =>
      match alookup prevBefore lv.instToPP with
      | none => none
      | some prevBeforePP =>
        match ppBetween prevBeforePP beforePP with
        | none => none
        | some instPP =>
          some (layoutInsertBefore f beforeI newI block, setPP lv newI instPP)

/-- Shared tail of both `insert_spill` success branches: build the store
instruction via `store_vreg_to_slot`, register it in the arena
(`create_inst`) and insert it directly after the anchor def
(`insert_inst_after`, whose internal unwraps panic). -/
def insertStoreAfter (f : MFunction) (lv : LivenessState)
    (n slot anchor blk : Nat) (nvs : List Nat) :
    Except SpillPanic (MFunction × LivenessState × List Nat) :=
  match insert_inst_after (createInst f (storeVRegToSlot n slot blk)).1 lv
      anchor (createInst f (storeVRegToSlot n slot blk)).2 blk with
  | none => .error .unwrapFailed
  | some (f4, lv4) => .ok (f4, lv4, nvs)

/-- The one-def branch of `insert_spill`: rewrite the def's output to the
new vreg and insert the store right after the def in the def's block. -/
def spillStoreOne (f : MFunction) (lv : LivenessState)
    (r n slot d : Nat) (nvs : List Nat) :
    Except SpillPanic (MFunction × LivenessState × List Nat) :=
  match instGet f d with
  | none => .error .unwrapFailed
  | some inst =>
    insertStoreAfter (setInst f d (replaceVReg inst r n)) lv n slot d
      inst.parent nvs

/-- The two-def (two-address form) branch of `insert_spill`: rewrite both
defs, remembering the last non-copy def and its block, and insert the store
after that def; `def_id.unwrap()` panics when both defs are copies. -/
def spillStoreTwo (f : MFunction) (lv : LivenessState)
    (r n slot d1 d2 : Nat) (nvs : List Nat) :
    Except SpillPanic (MFunction × LivenessState × List Nat) :=
  match instGet f d1 with
  | none => .error .unwrapFailed
  | some i1 =>
    match instGet (setInst f d1 (replaceVReg i1 r n)) d2 with
    | none => .error .unwrapFailed
    | some i2 =>
      match (if ¬i2.isCopy then ((some d2 : Option Nat), (some i2.parent : Option Nat))
             else if ¬i1.isCopy then (some d1, some i1.parent)
             else (none, none)) with
      | (some defId, some defBlock) =>
        insertStoreAfter (setInst (setInst f d1 (replaceVReg i1 r n)) d2
          (replaceVReg i2 r n)) lv n slot defId defBlock nvs
      | _ => .error .unwrapFailed

/-- `Spiller::insert_spill`: collect the defining users of `r`; with no defs
return unchanged; otherwise create one new vreg, then split on the number of
defs — one def: rewrite it and insert the store right after it; two defs
(two-address form): rewrite both and insert the store after the (last)
non-copy def; more than two defs: `panic!("invalid")`. -/
def insert_spill (f : MFunction) (lv : LivenessState) (r slot : Nat)
    (newVRegs : List Nat) :
    Except SpillPanic (MFunction × LivenessState × List Nat) :=
  if writeUsers f r = [] then .ok (f, lv, newVRegs)
  else
    match createFrom f r with
    | none => .error .unwrapFailed
    | some (f1, n) =>
      match writeUsers f r with
      | [d] => spillStoreOne f1 lv r n slot d (newVRegs ++ [n])
      | [d1, d2] => spillStoreTwo f1 lv r n slot d1 d2 (newVRegs ++ [n])
      | _ => .error .invalid

/-- One iteration of the `insert_reload` loop: rewrite the reading use's
operand to the (single, shared) fresh vreg `n` and insert a load from the
slot directly before the use in the use's block. -/
def reloadStep (f : MFunction) (lv : LivenessState) (r n slot u : Nat) :
    Except SpillPanic (MFunction × LivenessState) :=
  match instGet f u with
  | none => .error .unwrapFailed
  | some inst =>
    match insert_inst_before
        (createInst (setInst f u (replaceVReg inst r n))
          (loadFromSlot n slot inst.parent)).1 lv u
        (createInst (setInst f u (replaceVReg inst r n))
          (loadFromSlot n slot inst.parent)).2 inst.parent with
    | none => .error .unwrapFailed
    | some (f3, lv3) => .ok (f3, lv3)

/-- The `for use_id in uses` loop of `Spiller::insert_reload`. -/
def reloadLoop (f : MFunction) (lv : LivenessState) (r n slot : Nat) :
    List Nat → Except SpillPanic (MFunction × LivenessState)
  | [] => .ok (f, lv)
  | u :: rest =>
    match reloadStep f lv r n slot u with
    | .error e => .error e
    | .ok (f3, lv3) => reloadLoop f3 lv3 r n slot rest

/-- `Spiller::insert_reload`: collect the reading users of `r`; with no reads
return unchanged; otherwise create one new vreg shared by all reloads and run
the per-use loop. -/
def insert_reload (f : MFunction) (lv : LivenessState) (r slot : Nat)
    (newVRegs : List Nat) :
    Except SpillPanic (MFunction × LivenessState × List Nat) :=
  if readUsers f r = [] then .ok (f, lv, newVRegs)
  else
    match createFrom f r with
    | none => .error .unwrapFailed
    | some (f1, n) =>
      match reloadLoop f1 lv r n slot (readUsers f r) with
      | .error e => .error e
      | .ok (f2, lv2) => .ok (f2, lv2, newVRegs ++ [n])

/-- Modelled from the spec: `Liveness::compute_live_ranges` (liveness module
not in the snapshot) computes and records a live range for the given vreg
(§4.3); only the fact that the vreg now has a range is modelled. -/
def computeLiveRanges (lv : LivenessState) (v : Nat) : LivenessState :=
  { lv with ranges := lv.ranges ++ [v] }

/-- Modelled from the spec: `Liveness::remove_vreg` removes the vreg's live
range wholesale (§4.3). -/
def removeVReg (lv : LivenessState) (r : Nat) : LivenessState :=
  { lv with ranges := lv.ranges.filter fun v => v ≠ r }

/-- `Spiller::spill`: assert the vreg type is i32, allocate a fresh typed
stack slot, insert spill stores then reloads, compute live ranges for every
new vreg, and remove the original vreg's live range. -/
def spill (f : MFunction) (lv : LivenessState) (r : Nat) :
    Except SpillPanic (MFunction × LivenessState × List Nat) :=
  match alookup r f.vregTys with
  | none => .error .unwrapFailed
  | some ty =>
    if ¬ty then .error .assertFailed
    else
      let slot := f.numSlots
      let f0 : MFunction := { f with numSlots := f.numSlots + 1 }
      match insert_spill f0 lv r slot [] with
      | .error e => .error e
      | .ok (f1, lv1, nv1) =>
        match insert_reload f1 lv1 r slot nv1 with
        | .error e => .error e
        | .ok (f2, lv2, nv2) =>
          .ok (f2, removeVReg (nv2.foldl computeLiveRanges lv2) r, nv2)

/-- Two layout entries are adjacent: `a` directly followed by `b`. -/
def adjPair (l : List Nat) (a b : Nat) : Prop :=
  ∃ l1 l2, l = l1 ++ a :: b :: l2

/-- Concrete machine function: vreg 0 is defined once (inst 10) and read at
three instructions 11, 12, 13, all in block 0 (spec scenario 3). -/
def exOneDef : MFunction :=
  { insts := [(10, ⟨0, [0], [], false, .plain⟩), (11, ⟨0, [], [0], false, .plain⟩),
              (12, ⟨0, [], [0], false, .plain⟩), (13, ⟨0, [], [0], false, .plain⟩)],
    layout := [(0, [10, 11, 12, 13])], nextInstId := 14, nextVReg := 1,
    vregTys := [(0, true)], numSlots := 0 }

def exOneDefLv : LivenessState :=
  { instToPP := [(10, 16), (11, 32), (12, 48), (13, 64)], ranges := [0] }

/-- Concrete two-address machine function: vreg 0 is written by the compute
def 10 and by the copy def 12 (the last instruction of block 0), and read at
11 (spec scenario 6). -/
def exTwoAddr : MFunction :=
  { insts := [(10, ⟨0, [0], [], false, .plain⟩), (11, ⟨0, [], [0], false, .plain⟩),
              (12, ⟨0, [0], [], true, .plain⟩)],
    layout := [(0, [10, 11, 12])], nextInstId := 13, nextVReg := 1,
    vregTys := [(0, true)], numSlots := 0 }

def exTwoAddrLv : LivenessState :=
  { instToPP := [(10, 16), (11, 32), (12, 48)], ranges := [0] }

/-- The machine function produced by `insert_spill` on `exTwoAddr`: both defs
rewritten to vreg 1, the store (inst 13) inserted directly after the compute
def 10, not after the copy 12. -/
def exTwoAddrOutF : MFunction :=
  { insts := [(10, ⟨0, [1], [], false, .plain⟩), (11, ⟨0, [], [0], false, .plain⟩),
              (12, ⟨0, [1], [], true, .plain⟩), (13, ⟨0, [], [1], false, .store 0⟩)],
    layout := [(0, [10, 13, 11, 12])], nextInstId := 14, nextVReg := 2,
    vregTys := [(0, true), (1, true)], numSlots := 0 }

def exTwoAddrOutLv : LivenessState :=
  { instToPP := [(13, 24), (10, 16), (11, 32), (12, 48)], ranges := [0] }

/-- The new-vreg list a spill result carries. -/
def spillResultVRegs :
    Except SpillPanic (MFunction × LivenessState × List Nat) → List Nat
  | .ok (_, _, nv) => nv
  | .error _ => []

/-- The read operands of instruction `i` in a spill result. -/
def spillResultUses
    (x : Except SpillPanic (MFunction × LivenessState × List Nat)) (i : Nat) :
    List Nat :=
  match x with
  | .ok (f, _, _) =>
    match instGet f i with
    | some d => d.uses
    | none => []
  | .error _ => []

/-- The result of `insert_reload` on `exOneDef`: one shared fresh vreg 1,
loads 14/15/16 inserted directly before the reading uses 11/12/13. -/
def exOneDefReloadF : MFunction :=
  { insts := [(10, ⟨0, [0], [], false, .plain⟩), (11, ⟨0, [], [1], false, .plain⟩),
              (12, ⟨0, [], [1], false, .plain⟩), (13, ⟨0, [], [1], false, .plain⟩),
              (14, ⟨0, [1], [], false, .load 0⟩), (15, ⟨0, [1], [], false, .load 0⟩),
              (16, ⟨0, [1], [], false, .load 0⟩)],
    layout := [(0, [10, 14, 11, 15, 12, 16, 13])], nextInstId := 17,
    nextVReg := 2, vregTys := [(0, true), (1, true)], numSlots := 0 }

def exOneDefReloadLv : LivenessState :=
  { instToPP := [(16, 56), (15, 40), (14, 24), (10, 16), (11, 32), (12, 48),
      (13, 64)], ranges := [0] }

/-- The result of the full `spill` of vreg 0 on `exOneDef`. -/
def exOneDefSpillF : MFunction :=
  { insts := [(10, ⟨0, [1], [], false, .plain⟩), (11, ⟨0, [], [2], false, .plain⟩),
              (12, ⟨0, [], [2], false, .plain⟩), (13, ⟨0, [], [2], false, .plain⟩),
              (14, ⟨0, [], [1], false, .store 0⟩), (15, ⟨0, [2], [], false, .load 0⟩),
              (16, ⟨0, [2], [], false, .load 0⟩), (17, ⟨0, [2], [], false, .load 0⟩)],
    layout := [(0, [10, 14, 15, 11, 16, 12, 17, 13])], nextInstId := 18,
    nextVReg := 3, vregTys := [(0, true), (1, true), (2, true)], numSlots := 1 }

def exOneDefSpillLv : LivenessState :=
  { instToPP := [(17, 56), (16, 40), (15, 28), (14, 24), (10, 16), (11, 32),
      (12, 48), (13, 64)], ranges := [1, 2] }

/-- A machine function whose only def of vreg 0 (inst 10) is the last
instruction of its block. -/
def exDefLast : MFunction :=
  { insts := [(10, ⟨0, [0], [], false, .plain⟩)], layout := [(0, [10])],
    nextInstId := 11, nextVReg := 1, vregTys := [(0, true)], numSlots := 0 }

def exDefLastLv : LivenessState :=
  { instToPP := [(10, 16)], ranges := [0] }

/-- Whether a spill result is a success. -/
def isOkResult :
    Except SpillPanic (MFunction × LivenessState × List Nat) → Bool
  | .ok _ => true
  | .error _ => false

end Spl

namespace Low

/-- The facts about an IR opcode that `compile_function` consults: equality
with `Opcode::Alloca` / `Opcode::Phi`, and `Opcode::has_side_effects`.

Modelled from the spec: the core opcode enumeration and `has_side_effects`
live in the core instruction module, which is not in the snapshot; the driver
only branches on these three booleans. -/
structure IROp where
  isAlloca : Bool
  isPhi : Bool
  sideEffects : Bool
deriving DecidableEq, Repr

/-- An IR instruction as the lowering driver sees it: opcode, parent block
(`Instruction::parent`) and the ids of its users (`Data::users_of`). -/
structure IRInst where
  opcode : IROp
  parent : Nat
  users : List Nat
deriving DecidableEq, Repr

/-- An IR function: the instruction arena and the block layout (block id and
the block's instruction ids in layout order, in function layout order). -/
structure IRFunction where
  insts : List (Nat × IRInst)
  blocks : List (Nat × List Nat)
deriving DecidableEq, Repr

def instGet (f : IRFunction) (i : Nat) : Option IRInst :=
  Spl.alookup i f.insts

/-- `inst.opcode == Opcode::Alloca || inst.opcode == Opcode::Phi`: the test
both header loops break on. -/
def isHeaderInst (f : IRFunction) (i : Nat) : Bool :=
  match instGet f i with
  | some d => d.opcode.isAlloca || d.opcode.isPhi
  | none => false

/-- `function.data.users_of(inst_id).iter().all(|&user|
function.data.inst_ref(user).parent == inst.parent)`. -/
def usersSameBlock (f : IRFunction) (d : IRInst) : Bool :=
  d.users.all fun u =>
    match instGet f u with
    | some ud => ud.parent == d.parent
    | none => false

/-- The driver's skip test: no side effects and every user in the same
block. -/
def shouldSkip (f : IRFunction) (i : Nat) : Bool :=
  match instGet f i with
  | some d => !d.opcode.sideEffects && usersSameBlock f d
  | none => false

/-- The leading alloca/phi run of a block: the instructions the per-block
header loop lowers (it breaks at the first other opcode). -/
def headerRun (f : IRFunction) (ids : List Nat) : List Nat :=
  ids.takeWhile (isHeaderInst f)

/-- The instructions the reverse loop lowers, in the (reverse) order it
visits them: it iterates the block in reverse, breaks at the first
alloca/phi, and skips the no-side-effect all-users-in-block ones. -/
def bodyRevRun (f : IRFunction) (ids : List Nat) : List Nat :=
  (ids.reverse.takeWhile fun i => !isHeaderInst f i).filter
    fun i => !shouldSkip f i

/-- The machine code of one block: the prologue sequence (parameter copies
when this is the entry block, then the header-lowered alloca/phi emissions)
followed by the body emissions restored to forward order — the driver pushes
per-instruction groups during the reverse walk, appends the prologue group,
and replays the groups reversed. -/
def machineBlock {ε : Type} (prologue0 : List ε) (lowerFn : Nat → List ε)
    (f : IRFunction) (ids : List Nat) : List ε :=
  prologue0 ++ (headerRun f ids).flatMap lowerFn ++
    (bodyRevRun f ids).reverse.flatMap lowerFn

/-- `compile_function`, abstracted over the target: `lowerFn i` is the
machine-instruction sequence the target's `Lower::lower` hook appends to
`ctx.inst_seq` for IR instruction `i`, and `prologueSeq` is what
`copy_args_to_vregs` emits (invoked only when the block index is 0). Returns
the machine blocks (in order, keyed by IR block id) and the trace of IR
instruction ids for which the `lower` hook was invoked, in invocation
order. -/
def compile_function {ε : Type} (prologueSeq : List ε)
    (lowerFn : Nat → List ε) (f : IRFunction) :
    List (Nat × List ε) × List Nat :=
  (f.blocks.enum.map fun p =>
      (p.2.1, machineBlock (if p.1 = 0 then prologueSeq else [])
        lowerFn f p.2.2),
   f.blocks.flatMap fun q => headerRun f q.2 ++ bodyRevRun f q.2)

/-- A two-block function whose non-entry block is headed by a phi: block 0
holds a terminator 20; block 1 holds a phi 21 used by its terminator 22. -/
def exPhiFn : IRFunction :=
  { insts := [(20, ⟨⟨false, false, true⟩, 0, []⟩),
              (21, ⟨⟨false, true, false⟩, 1, [22]⟩),
              (22, ⟨⟨false, false, true⟩, 1, []⟩)],
    blocks := [(0, [20]), (1, [21, 22])] }

/-- A one-block function: instruction 30 is an add-like instruction (no side
effects) whose only user is the terminator 31 of the same block. -/
def exAddRet : IRFunction :=
  { insts := [(30, ⟨⟨false, false, false⟩, 0, [31]⟩),
              (31, ⟨⟨false, false, true⟩, 0, []⟩)],
    blocks := [(0, [30, 31])] }

end Low

namespace Prt

/-- `Name` in the IR module: either a symbolic name or an auto-number. -/
inductive PName where
  | name (s : String)
  | num (n : Nat)
deriving DecidableEq, Repr

/-- `Name::to_string`: `Some` for a symbolic name, `None` for a number.

Modelled from the spec: the name module is not in the snapshot; the printer
only uses it to ask whether a name is symbolic. -/
def nameToStr : PName → Option String
  | .name s => some s
  | .num _ => none

/-- `Ids`: the key type of the printer's `indexes` map. -/
inductive Ids where
  | block (b : Nat)
  | inst (i : Nat)
  | arg (i : Nat)
deriving DecidableEq, Repr

/-- The opcodes the naming walk distinguishes; every other opcode behaves
like `intBinary` for naming purposes. -/
inductive POpcode where
  | alloca | phi | load | store | intBinary | icmp | cast | gep
  | call | invoke | landingPad | resume | br | condbr | ret | unreachable
deriving DecidableEq, Repr

/-- `matches!(inst.opcode, Opcode::Store | Opcode::Br | Opcode::CondBr |
Opcode::Ret | Opcode::Resume)`. -/
def isNoResultOpcode : POpcode → Bool
  | .store | .br | .condbr | .ret | .resume => true
  | _ => false

/-- An instruction as the naming walk sees it: its opcode, the outcome of
`inst.operand.call_result_ty().as_ref().map_or(false, Type::is_void)`
(modelled from the spec: the operand and type modules are not in the
snapshot; the flag is true exactly for a call/invoke operand whose return
type is void), and `inst.dest`. -/
structure PInst where
  opcode : POpcode
  callResultVoid : Bool
  dest : Option PName
deriving DecidableEq, Repr

/-- A function parameter; `param.name` is a `Name` (a number when the
parameter is unnamed). -/
structure PParam where
  name : PName
deriving DecidableEq, Repr

/-- A basic block as the walk sees it: its optional name and its
instructions (id and payload) in layout order. -/
structure PBlock where
  name : Option PName
  insts : List (Nat × PInst)
deriving DecidableEq, Repr

/-- A function as the walk sees it: parameters in order and blocks (id and
payload) in layout order. -/
structure PFunction where
  params : List PParam
  blocks : List (Nat × PBlock)
deriving DecidableEq, Repr

/-- The printer's mutable naming state: the `indexes` map (most recent
insertion first, as `FxHashMap::insert` overwrites) and `cur_index`. -/
structure PrinterState where
  indexes : List (Ids × PName)
  curIndex : Nat
deriving DecidableEq, Repr

def plookup (k : Ids) : List (Ids × PName) → Option PName
  | [] => none
  | p :: ps => if p.1 = k then some p.2 else plookup k ps

/-- `self.indexes.insert(k, v)` without touching `cur_index`. -/
def insertIdx (st : PrinterState) (k : Ids) (v : PName) : PrinterState :=
  { st with indexes := (k, v) :: st.indexes }

/-- `new_name_for_arg` / `new_name_for_block` / `new_name_for_inst`: record
`Name::Number(cur_index)` for the key and increment `cur_index`. -/
def newNameFor (st : PrinterState) (k : Ids) : PrinterState :=
  { indexes := (k, PName.num st.curIndex) :: st.indexes,
    curIndex := st.curIndex + 1 }

/-- The parameter loop of `FunctionAsmPrinter::print` (print.rs:63-83),
restricted to its naming effect: a symbolic parameter name is recorded
as-is (without consuming an index), any other parameter is auto-numbered. -/
def nameArgsFrom (st : PrinterState) (i : Nat) : List PParam → PrinterState
  | [] => st
  | p :: ps =>
    match nameToStr p.name with
    | some s => nameArgsFrom (insertIdx st (.arg i) (.name s)) (i + 1) ps
    | none => nameArgsFrom (newNameFor st (.arg i)) (i + 1) ps

/-- The skip test of the instruction naming loop (print.rs:131-141). -/
def instSkipped (inst : PInst) : Bool :=
  isNoResultOpcode inst.opcode || inst.callResultVoid

/-- Naming of one instruction (print.rs:129-155): skipped instructions get
no entry; a symbolic `dest` is kept; a numeric or missing `dest` is
auto-numbered. -/
def nameInst (st : PrinterState) (id : Nat) (inst : PInst) : PrinterState :=
  if instSkipped inst then st
  else
    match inst.dest with
    | some (.name s) => insertIdx st (.inst id) (.name s)
    | some (.num _) => newNameFor st (.inst id)
    | none => newNameFor st (.inst id)

def nameInsts (st : PrinterState) : List (Nat × PInst) → PrinterState
  | [] => st
  | q :: rest => nameInsts (nameInst st q.1 q.2) rest

/-- Naming of a block label (print.rs:115-127): a symbolic block name is
kept, a numeric or missing one is auto-numbered. -/
def nameBlockLabel (st : PrinterState) (id : Nat) (b : PBlock) :
    PrinterState :=
  match b.name with
  | some n =>
    match nameToStr n with
    | some s => insertIdx st (.block id) (.name s)
    | none => newNameFor st (.block id)
  | none => newNameFor st (.block id)

def nameBlock (st : PrinterState) (id : Nat) (b : PBlock) : PrinterState :=
  nameInsts (nameBlockLabel st id b) b.insts

def nameBlocks (st : PrinterState) : List (Nat × PBlock) → PrinterState
  | [] => st
  | q :: rest => nameBlocks (nameBlock st q.1 q.2) rest

/-- The whole naming walk of `FunctionAsmPrinter::print`: arguments first,
then for each block in layout order its label and then its instructions,
starting from an empty map and `cur_index = 0`. -/
def assignNames (f : PFunction) : PrinterState :=
  nameBlocks (nameArgsFrom ⟨[], 0⟩ 0 f.params) f.blocks

def lookupIdx (st : PrinterState) (k : Ids) : Option PName :=
  plookup k st.indexes

/-- The entries the parameter loop inserts, in insertion order, together
with the final counter, starting from counter `n` and parameter index
`i`. -/
def argEntries (n i : Nat) : List PParam → List (Ids × PName) × Nat
  | [] => ([], n)
  | p :: ps =>
    match nameToStr p.name with
    | some s =>
      let r := argEntries n (i + 1) ps
      ((Ids.arg i, PName.name s) :: r.1, r.2)
    | none =>
      let r := argEntries (n + 1) (i + 1) ps
      ((Ids.arg i, PName.num n) :: r.1, r.2)

/-- The entries the instruction loop inserts, in insertion order, with the
final counter. -/
def instEntries (n : Nat) : List (Nat × PInst) → List (Ids × PName) × Nat
  | [] => ([], n)
  | q :: rest =>
    if instSkipped q.2 then instEntries n rest
    else
      match q.2.dest with
      | some (.name s) =>
        let r := instEntries n rest
        ((Ids.inst q.1, PName.name s) :: r.1, r.2)
      | some (.num _) =>
        let r := instEntries (n + 1) rest
        ((Ids.inst q.1, PName.num n) :: r.1, r.2)
      | none =>
        let r := instEntries (n + 1) rest
        ((Ids.inst q.1, PName.num n) :: r.1, r.2)

/-- The entry a block label insertion produces, with the resulting
counter. -/
def blockLabelEntry (n : Nat) (id : Nat) (b : PBlock) :
    List (Ids × PName) × Nat :=
  match b.name with
  | some nm =>
    match nameToStr nm with
    | some s => ([(Ids.block id, PName.name s)], n)
    | none => ([(Ids.block id, PName.num n)], n + 1)
  | none => ([(Ids.block id, PName.num n)], n + 1)

/-- The entries the block walk inserts, in insertion order, with the final
counter. -/
def blockEntries (n : Nat) : List (Nat × PBlock) → List (Ids × PName) × Nat
  | [] => ([], n)
  | q :: rest =>
    let l := blockLabelEntry n q.1 q.2
    let i := instEntries l.2 q.2.insts
    let r := blockEntries i.2 rest
    (l.1 ++ i.1 ++ r.1, r.2)

/-- All entries the naming walk inserts, in insertion order. -/
def funEntries (f : PFunction) : List (Ids × PName) :=
  (argEntries 0 0 f.params).1 ++
    (blockEntries (argEntries 0 0 f.params).2 f.blocks).1

/-- Keep an entry exactly when its recorded name is an auto-number. -/
def numEntry (e : Ids × PName) : Option (Ids × PName) :=
  match e.2 with
  | .num _ => some e
  | .name _ => none

/-- The keys `ks` paired with the consecutive numbers `n, n+1, …`. -/
def numberedFrom (n : Nat) : List Ids → List (Ids × PName)
  | [] => []
  | k :: ks => (k, PName.num n) :: numberedFrom (n + 1) ks

/-- Stated from the claim: the unnamed parameters, in order, starting at
parameter index `i`. -/
def specUnnamedArgKeys (i : Nat) : List PParam → List Ids
  | [] => []
  | p :: ps =>
    match p.name with
    | .name _ => specUnnamedArgKeys (i + 1) ps
    | .num _ => Ids.arg i :: specUnnamedArgKeys (i + 1) ps

/-- Stated from the claim: the keys of instructions that receive an
auto-number — not skipped and without a symbolic result name. -/
def specUnnamedInstKeys : List (Nat × PInst) → List Ids
  | [] => []
  | q :: rest =>
    if instSkipped q.2 then specUnnamedInstKeys rest
    else
      match q.2.dest with
      | some (.name _) => specUnnamedInstKeys rest
      | some (.num _) => Ids.inst q.1 :: specUnnamedInstKeys rest
      | none => Ids.inst q.1 :: specUnnamedInstKeys rest

/-- Stated from the claim: the block-label key if the block has no symbolic
name. -/
def specUnnamedBlockKey (id : Nat) (b : PBlock) : List Ids :=
  match b.name with
  | some (.name _) => []
  | some (.num _) => [Ids.block id]
  | none => [Ids.block id]

def specUnnamedBlockListKeys : List (Nat × PBlock) → List Ids
  | [] => []
  | q :: rest =>
    specUnnamedBlockKey q.1 q.2 ++ specUnnamedInstKeys q.2.insts ++
      specUnnamedBlockListKeys rest

/-- Stated from the claim: every unnamed entity in walk order — arguments
first, then per block in layout order the label and then the
instructions. -/
def specUnnamedKeys (f : PFunction) : List Ids :=
  specUnnamedArgKeys 0 f.params ++ specUnnamedBlockListKeys f.blocks

/-- All argument keys, in order. -/
def argKeysFrom (i : Nat) : List PParam → List Ids
  | [] => []
  | _ :: ps => Ids.arg i :: argKeysFrom (i + 1) ps

/-- Every key the walk can touch, in walk order. -/
def specAllKeys (f : PFunction) : List Ids :=
  argKeysFrom 0 f.params ++
    f.blocks.flatMap fun q =>
      Ids.block q.1 :: q.2.insts.map fun r => Ids.inst r.1

/-- A function exercising all naming cases: a symbolic parameter kept, an
unnamed parameter, a symbolically named entry block, a numeric-dest
instruction, a store and a void call (both skipped), a symbolic-dest
instruction, a terminator, an unnamed second block and a non-void call. -/
def exPrintBlock0 : PBlock :=
  { name := some (.name "entry"),
    insts := [
      (10, ⟨.intBinary, false, some (.num 1)⟩),
      (11, ⟨.store, false, none⟩),
      (12, ⟨.call, true, none⟩),
      (13, ⟨.icmp, false, some (.name "c")⟩),
      (14, ⟨.ret, false, none⟩)] }

def exPrintFn : PFunction :=
  { params := [⟨.name "x"⟩, ⟨.num 0⟩],
    blocks := [
      (0, exPrintBlock0),
      (1, { name := none,
            insts := [(15, ⟨.call, false, none⟩)] })] }

end Prt

namespace Psr

/-- Outcome of a Rust parser call: success with the remaining input, a nom
error (caught by `if let Ok`/propagated by `?`), a Rust panic
(`todo!`/`unwrap`), or exhaustion of the model's recursion fuel. -/
inductive PRes (α : Type) where
  | ok (rest : List Char) (val : α)
  | fail
  | panicked
  | outOfFuel
deriving Repr

def isSpaceChar (c : Char) : Bool :=
  c == ' ' || c == '\n' || c == '\t' || c == '\r'

/-- Modelled from the spec: `util::spaces` skips whitespace; its `;`
comment skipping is omitted (no claim input contains comments). -/
def skipSpaces (s : List Char) : List Char :=
  s.dropWhile isSpaceChar

def startsWith : List Char → List Char → Bool
  | [], _ => true
  | _ :: _, [] => false
  | p :: ps, c :: cs => p == c && startsWith ps cs

/-- `tag(t)`: match the literal `t` at the head of the input. -/
def tagP (t : String) (s : List Char) : Option (List Char) :=
  if startsWith t.data s then some (s.drop t.data.length) else none

/-- `preceded(spaces, tag(t))`. -/
def pTag (t : String) (s : List Char) : Option (List Char) :=
  tagP t (skipSpaces s)

/-- `preceded(spaces, char(c))`. -/
def pChar (c : Char) (s : List Char) : Option (List Char) :=
  match skipSpaces s with
  | c2 :: rest => if c2 == c then some rest else none
  | [] => none

/-- `digit1`: one or more decimal digits, without leading spaces. -/
def takeDigits1 (s : List Char) : Option (List Char × List Char) :=
  let ds := s.takeWhile Char.isDigit
  if ds.isEmpty then none else some (s.drop ds.length, ds)

def digitsVal (ds : List Char) : Option Nat :=
  if ds.isEmpty || !ds.all Char.isDigit then none
  else some (ds.foldl (fun acc c => acc * 10 + (c.toNat - 48)) 0)

/-- `str::parse::<iN>`: an optional sign followed by digits only. -/
def parseIntStr (s : List Char) : Option Int :=
  match s with
  | '-' :: ds => (digitsVal ds).map fun n => -(n : Int)
  | ds => (digitsVal ds).map fun n => (n : Int)

/-- Modelled from the spec: `util::string_literal` parses a double-quoted
string; escape handling is omitted (no claim input uses escapes). -/
def stringLit (s : List Char) : Option (List Char × List Char) :=
  match s with
  | '"' :: rest =>
    let str := rest.takeWhile fun c => !(c == '"')
    match rest.drop str.length with
    | '"' :: r2 => some (r2, str)
    | _ => none
  | _ => none

def isNameChar (c : Char) : Bool :=
  c.isAlphanum || c == '_' || c == '.' || c == '$' || c == '-'

/-- Modelled from the spec: `name::parse` accepts an identifier (quoted
names omitted; no claim input uses them). -/
def nameParse (s : List Char) : Option (List Char × String) :=
  let nm := s.takeWhile isNameChar
  if nm.isEmpty then none else some (s.drop nm.length, String.mk nm)

/-- The LLVM types the claims' inputs mention. -/
inductive LType where
  | int (w : Nat)
  | void
  | ptr (t : LType)
  | array (n : Nat) (t : LType)
deriving DecidableEq, Repr

def ptrSuffix (fuel : Nat) (s : List Char) (t : LType) : List Char × LType :=
  match fuel with
  | 0 => (s, t)
  | fuel + 1 =>
    match skipSpaces s with
    | '*' :: rest => ptrSuffix fuel rest (.ptr t)
    | _ => (s, t)

/-- Modelled from the spec: `types::parse` (the types module is not in the
snapshot) — `void`, `iN`, `[N x T]`, and trailing `*` for pointers, with
leading spaces. -/
def typesParseCore (fuel : Nat) (s : List Char) :
    Option (List Char × LType) :=
  match fuel with
  | 0 => none
  | fuel + 1 =>
    let s1 := skipSpaces s
    let base :=
      if startsWith "void".data s1 then some (s1.drop 4, LType.void)
      else
        match s1 with
        | 'i' :: rest =>
          match takeDigits1 rest with
          | some (r, ds) => (digitsVal ds).map fun n => (r, LType.int n)
          | none => none
        | '[' :: rest =>
          match takeDigits1 (skipSpaces rest) with
          | some (r, ds) =>
            match skipSpaces r with
            | 'x' :: r2 =>
              match typesParseCore fuel r2 with
              | some (r3, t) =>
                match skipSpaces r3 with
                | ']' :: r4 =>
                  (digitsVal ds).map fun n => (r4, LType.array n t)
                | _ => none
              | none => none
            | _ => none
          | none => none
        | _ => none
    match base with
    | none => none
    | some (r, t) => some (ptrSuffix fuel r t)

/-- `ConstantInt`. -/
inductive CInt where
  | int1 (b : Bool)
  | int8 (v : Int)
  | int32 (v : Int)
  | int64 (v : Int)
deriving DecidableEq, Repr

/-- `ConstantData`, with `Expr` constants inlined as the two constructors
`exprGep` and `exprBitcast`. -/
inductive ConstantData where
  | undef
  | null
  | aggregateZero
  | int (i : CInt)
  | array (elemTy : LType) (elems : List ConstantData) (isString : Bool)
  | globalRef (name : String)
  | structConst (elemsTy : List LType) (elems : List ConstantData)
      (isPacked : Bool)
  | exprGep (inbounds : Bool) (tys : List LType) (args : List ConstantData)
  | exprBitcast (tyFrom tyTo : LType) (arg : ConstantData)

/-- `recognize(tuple((opt(char('-')), alt((digit1, tag("true"),
tag("false"))))))` after `spaces`: the raw integer token. -/
def numToken (s : List Char) : Option (List Char × List Char) :=
  let s1 := skipSpaces s
  let (neg, s2) :=
    match s1 with
    | '-' :: rest => ((['-'] : List Char), rest)
    | _ => (([] : List Char), s1)
  match takeDigits1 s2 with
  | some (r, ds) => some (r, neg ++ ds)
  | none =>
    if startsWith "true".data s2 then some (s2.drop 4, neg ++ "true".data)
    else if startsWith "false".data s2 then
      some (s2.drop 5, neg ++ "false".data)
    else none

/-- `parse_constant_int`: token first, then the width dispatch; a non-i1
token that is not a valid in-range integer panics (`unwrap`), and a width
other than 1/8/32/64 hits `todo!()`. -/
def parse_constant_int (s : List Char) (ty : LType) : PRes CInt :=
  match numToken s with
  | none => .fail
  | some (rest, tok) =>
    match ty with
    | .int 1 => .ok rest (.int1 (tok == "true".data))
    | .int 8 =>
      match parseIntStr tok with
      | some v =>
        if -128 ≤ v && v ≤ 127 then .ok rest (.int8 v) else .panicked
      | none => .panicked
    | .int 32 =>
      match parseIntStr tok with
      | some v =>
        if -2147483648 ≤ v && v ≤ 2147483647 then .ok rest (.int32 v)
        else .panicked
      | none => .panicked
    | .int 64 =>
      match parseIntStr tok with
      | some v =>
        if -9223372036854775808 ≤ v && v ≤ 9223372036854775807 then
          .ok rest (.int64 v)
        else .panicked
      | none => .panicked
    | _ => .panicked

/-- `*c as i8`: reinterpret a byte as a signed 8-bit value. -/
def byteAsI8 (c : Char) : Int :=
  if c.toNat % 256 < 128 then (c.toNat % 256 : Int)
  else (c.toNat % 256 : Int) - 256

/-- `parse_constant_array`: `c "…"` string constants only. -/
def parse_constant_array (s : List Char) : PRes ConstantData :=
  match pChar 'c' s with
  | none => .fail
  | some s1 =>
    match stringLit (skipSpaces s1) with
    | some (rest, str) =>
      .ok rest (.array (.int 8)
        (str.map fun c => ConstantData.int (.int8 (byteAsI8 c))) true)
    | none => .fail

/-- `parse_constant_global_ref`: `@name`. -/
def parse_constant_global_ref (s : List Char) : PRes ConstantData :=
  match skipSpaces s with
  | '@' :: rest =>
    match nameParse rest with
    | some (r, nm) => .ok r (.globalRef nm)
    | none => .fail
  | _ => .fail

mutual

/-- `parse_constant`: try `undef`, `null`, `zeroinitializer`, integer,
string array, global reference, struct, then constant expressions; a nom
error falls through to the next alternative, a panic propagates. -/
def parse_constant (fuel : Nat) (s : List Char) (ty : LType) :
    PRes ConstantData :=
  match fuel with
  | 0 => .outOfFuel
  | fuel + 1 =>
    match pTag "undef" s with
    | some rest => .ok rest .undef
    | none =>
      match pTag "null" s with
      | some rest => .ok rest .null
      | none =>
        match pTag "zeroinitializer" s with
        | some rest => .ok rest .aggregateZero
        | none =>
          match parse_constant_int s ty with
          | .ok rest v => .ok rest (.int v)
          | .panicked => .panicked
          | .outOfFuel => .outOfFuel
          | .fail =>
            match parse_constant_array s with
            | .ok rest v => .ok rest v
            | .panicked => .panicked
            | .outOfFuel => .outOfFuel
            | .fail =>
              match parse_constant_global_ref s with
              | .ok rest v => .ok rest v
              | .panicked => .panicked
              | .outOfFuel => .outOfFuel
              | .fail =>
                match parse_constant_struct fuel s with
                | .ok rest v => .ok rest v
                | .panicked => .panicked
                | .outOfFuel => .outOfFuel
                | .fail => parse_constant_expr fuel s

/-- `parse_constant_struct`: `{ … }` or `<{ … }>`, trying `tag("{")`
before `tag("<{")`. -/
def parse_constant_struct (fuel : Nat) (s : List Char) : PRes ConstantData :=
  match fuel with
  | 0 => .outOfFuel
  | fuel + 1 =>
    match pTag "\x7b" s with
    | some s1 => structLoop fuel s1 false [] []
    | none =>
      match pTag "<\x7b" s with
      | some s1 => structLoop fuel s1 true [] []
      | none => .fail

/-- The element loop of `parse_constant_struct`: type, constant, then `,`
to continue or the closing brace to finish (via `?`, so a missing brace is
an error). -/
def structLoop (fuel : Nat) (s : List Char) (isPacked : Bool)
    (elemsTy : List LType) (elems : List ConstantData) : PRes ConstantData :=
  match fuel with
  | 0 => .outOfFuel
  | fuel + 1 =>
    match typesParseCore fuel s with
    | none => .fail
    | some (s2, t) =>
      match parse_constant fuel s2 t with
      | .ok s3 konst =>
        match pChar ',' s3 with
        | some s4 => structLoop fuel s4 isPacked (elemsTy ++ [t])
            (elems ++ [konst])
        | none =>
          match pTag (if isPacked then "\x7d>" else "\x7d") s3 with
          | some s4 => .ok s4 (.structConst (elemsTy ++ [t])
              (elems ++ [konst]) isPacked)
          | none => .fail
      | .fail => .fail
      | .panicked => .panicked
      | .outOfFuel => .outOfFuel

/-- `parse_constant_expr`: `getelementptr` first, then `bitcast`. -/
def parse_constant_expr (fuel : Nat) (s : List Char) : PRes ConstantData :=
  match fuel with
  | 0 => .outOfFuel
  | fuel + 1 =>
    match parse_constant_getelementptr fuel s with
    | .ok rest v => .ok rest v
    | .panicked => .panicked
    | .outOfFuel => .outOfFuel
    | .fail => parse_constant_bitcast fuel s

/-- `parse_constant_getelementptr`: keyword, optional `inbounds`, `(`, the
source type, `,`, then the argument loop seeded with `tys = [ty]` and
`args = []`. -/
def parse_constant_getelementptr (fuel : Nat) (s : List Char) :
    PRes ConstantData :=
  match fuel with
  | 0 => .outOfFuel
  | fuel + 1 =>
    match pTag "getelementptr" s with
    | none => .fail
    | some s1 =>
      let (inbounds, s2) :=
        match pTag "inbounds" s1 with
        | some r => (true, r)
        | none => (false, s1)
      match pChar '(' s2 with
      | none => .fail
      | some s3 =>
        match typesParseCore fuel s3 with
        | none => .fail
        | some (s4, ty) =>
          match pChar ',' s4 with
          | none => .fail
          | some s5 => gepLoop fuel s5 inbounds [ty] []

/-- The argument loop of `parse_constant_getelementptr`: each iteration
parses one type and one constant and pushes both; `,` continues, `)`
returns the accumulated `Expr::GetElementPtr`; with neither, the Rust
`loop` spins on the unchanged source (modelled by recursing on the same
input until fuel runs out). -/
def gepLoop (fuel : Nat) (s : List Char) (inbounds : Bool)
    (tys : List LType) (args : List ConstantData) : PRes ConstantData :=
  match fuel with
  | 0 => .outOfFuel
  | fuel + 1 =>
    match typesParseCore fuel s with
    | none => .fail
    | some (s2, ty) =>
      match parse_constant fuel s2 ty with
      | .ok s3 arg =>
        match pChar ',' s3 with
        | some s4 => gepLoop fuel s4 inbounds (tys ++ [ty]) (args ++ [arg])
        | none =>
          match pChar ')' s3 with
          | some s4 => .ok s4 (.exprGep inbounds (tys ++ [ty])
              (args ++ [arg]))
          | none => gepLoop fuel s inbounds (tys ++ [ty]) (args ++ [arg])
      | .fail => .fail
      | .panicked => .panicked
      | .outOfFuel => .outOfFuel

/-- `parse_constant_bitcast`: `bitcast ( T c to T2 )`. -/
def parse_constant_bitcast (fuel : Nat) (s : List Char) :
    PRes ConstantData :=
  match fuel with
  | 0 => .outOfFuel
  | fuel + 1 =>
    match pTag "bitcast" s with
    | none => .fail
    | some s1 =>
      match pChar '(' s1 with
      | none => .fail
      | some s2 =>
        match typesParseCore fuel s2 with
        | none => .fail
        | some (s3, tyFrom) =>
          match parse_constant fuel s3 tyFrom with
          | .ok s4 arg =>
            match pTag "to" s4 with
            | none => .fail
            | some s5 =>
              match typesParseCore fuel s5 with
              | none => .fail
              | some (s6, tyTo) =>
                match pChar ')' s6 with
                | none => .fail
                | some s7 => .ok s7 (.exprBitcast tyFrom tyTo arg)
          | .fail => .fail
          | .panicked => .panicked
          | .outOfFuel => .outOfFuel

end

/-- The claim's example input, in constant position. -/
def exGepInput : List Char :=
  "getelementptr inbounds ([14 x i8], [14 x i8]* @msg, i32 0, i32 0)".data

/-- The constant the parser produces for `exGepInput`. -/
def exGepResult : ConstantData :=
  .exprGep true
    [.array 14 (.int 8), .ptr (.array 14 (.int 8)), .int 32, .int 32]
    [.globalRef "msg", .int (.int32 0), .int (.int32 0)]

def constTysLen : ConstantData → Nat
  | .exprGep _ tys _ => tys.length
  | _ => 0

def constArgsLen : ConstantData → Nat
  | .exprGep _ _ args => args.length
  | _ => 0

/-- The pieces of `Module` the top-level loop fills in; payloads of the
sub-parsers outside the snapshot are reduced to counts or names. -/
structure PModule where
  sourceFilename : List Char
  datalayout : List Char
  triple : List Char
  attrGroups : List Nat
  localTypes : List String
  globals : Nat
  functions : Nat
  metas : Nat
deriving DecidableEq, Repr

def emptyPModule : PModule := ⟨[], [], [], [], [], 0, 0, 0⟩

/-- `parse_source_filename` (module/parser.rs:20-27). -/
def parse_source_filename (s : List Char) :
    Option (List Char × List Char) :=
  match tagP "source_filename" s with
  | none => none
  | some s1 =>
    match pChar '=' s1 with
    | none => none
    | some s2 => stringLit (skipSpaces s2)

/-- `parse_target_datalayout` (module/parser.rs:29-37). -/
def parse_target_datalayout (s : List Char) :
    Option (List Char × List Char) :=
  match tagP "target" s with
  | none => none
  | some s1 =>
    match pTag "datalayout" s1 with
    | none => none
    | some s2 =>
      match pChar '=' s2 with
      | none => none
      | some s3 => stringLit (skipSpaces s3)

/-- `parse_target_triple` (module/parser.rs:39-47). -/
def parse_target_triple (s : List Char) :
    Option (List Char × List Char) :=
  match tagP "target" s with
  | none => none
  | some s1 =>
    match pTag "triple" s1 with
    | none => none
    | some s2 =>
      match pChar '=' s2 with
      | none => none
      | some s3 => stringLit (skipSpaces s3)

/-- Modelled from the spec: `attributes::parser::parse_attributes` is not
in the snapshot; the group's attribute list is skipped up to the closing
brace. -/
def skipAttrList (s : List Char) : List Char :=
  s.dropWhile fun c => !(c == '}')

/-- `parse_attribute_group` (module/parser.rs:49-60): `attributes #N = {
… }`; the group id is `digit1` parsed with `unwrap`, which panics beyond
`u32::MAX`. -/
def parse_attribute_group (s : List Char) : PRes Nat :=
  match tagP "attributes" s with
  | none => .fail
  | some s1 =>
    match pChar '#' s1 with
    | none => .fail
    | some s2 =>
      match takeDigits1 s2 with
      | none => .fail
      | some (s3, ds) =>
        match pChar '=' s3 with
        | none => .fail
        | some s4 =>
          match pChar '{' s4 with
          | none => .fail
          | some s5 =>
            match skipAttrList (skipSpaces s5) with
            | '}' :: s6 =>
              match digitsVal ds with
              | some id => if id < 4294967296 then .ok s6 id else .panicked
              | none => .panicked
            | _ => .fail

/-- `parse_local_type` (module/parser.rs:62-72): `%name = type T`. -/
def parse_local_type (fuel : Nat) (s : List Char) :
    Option (List Char × String) :=
  match pChar '%' s with
  | none => none
  | some s1 =>
    match nameParse s1 with
    | none => none
    | some (s2, nm) =>
      match pChar '=' s2 with
      | none => none
      | some s3 =>
        match pTag "type" s3 with
        | none => none
        | some s4 =>
          match typesParseCore fuel s4 with
          | none => none
          | some (s5, _) => some (s5, nm)

def consumeLine (s : List Char) : List Char :=
  match s.dropWhile fun c => !(c == '\n') with
  | _ :: r => r
  | [] => []

def consumeToCloseBrace (s : List Char) : List Char :=
  match s.dropWhile fun c => !(c == '}') with
  | _ :: r => r
  | [] => []

/-- Modelled from the spec: `global_variable::parse` is not in the
snapshot; it accepts a `@name = …` definition. The claims verified here
depend only on when it fails, i.e. on its lead tokens. -/
def globalVarParse (s : List Char) : Option (List Char × String) :=
  match skipSpaces s with
  | '@' :: rest =>
    match nameParse rest with
    | none => none
    | some (s1, nm) =>
      match pChar '=' s1 with
      | none => none
      | some s2 => some (consumeLine s2, nm)
  | _ => none

/-- Modelled from the spec: `function::parse` is not in the snapshot; it
accepts a `define … { … }` definition or a `declare …` prototype. The
claims verified here depend only on when it fails, i.e. on its lead
tokens. -/
def functionParse (s : List Char) : Option (List Char × Unit) :=
  match pTag "define" s with
  | some rest => some (consumeToCloseBrace rest, ())
  | none =>
    match pTag "declare" s with
    | some rest => some (consumeLine rest, ())
    | none => none

/-- Modelled from the spec: `metadata::parse` is not in the snapshot; it
accepts a `!name = …` definition. The claims verified here depend only on
when it fails, i.e. on its lead token. -/
def metadataParse (s : List Char) : Option (List Char × Unit) :=
  match skipSpaces s with
  | '!' :: rest => some (consumeLine rest, ())
  | _ => none

/-- Outcome of `module::parser::parse`: a module, a structured nom error
(the `Err` side of its `Result`), the `todo!(\x22unsupported syntax at
{:?}\x22, source)` panic carrying the remaining source, some other panic,
or fuel exhaustion of the model. -/
inductive TopOutcome where
  | okModule (m : PModule)
  | err
  | panicTodo (rest : List Char)
  | panicked
  | outOfFuel
deriving DecidableEq, Repr

/-- The top-level loop of `module::parser::parse` (module/parser.rs:74-133):
skip spaces, stop at end of input, try the eight alternatives in order with
`if let Ok`, and hit `todo!` when none applies. -/
def moduleParse (fuel : Nat) (s : List Char) (m : PModule) : TopOutcome :=
  match fuel with
  | 0 => .outOfFuel
  | fuel + 1 =>
    let s1 := skipSpaces s
    if s1.isEmpty then .okModule m
    else
      match parse_source_filename s1 with
      | some (rest, nm) =>
        moduleParse fuel rest { m with sourceFilename := nm }
      | none =>
        match parse_target_datalayout s1 with
        | some (rest, dl) =>
          moduleParse fuel rest { m with datalayout := dl }
        | none =>
          match parse_target_triple s1 with
          | some (rest, tr) =>
            moduleParse fuel rest { m with triple := tr }
          | none =>
            match parse_attribute_group s1 with
            | .ok rest id =>
              moduleParse fuel rest { m with attrGroups := m.attrGroups ++ [id] }
            | .panicked => .panicked
            | .outOfFuel => .outOfFuel
            | .fail =>
              match parse_local_type fuel s1 with
              | some (rest, nm) =>
                moduleParse fuel rest { m with localTypes := m.localTypes ++ [nm] }
              | none =>
                match globalVarParse s1 with
                | some (rest, _) =>
                  moduleParse fuel rest { m with globals := m.globals + 1 }
                | none =>
                  match functionParse s1 with
                  | some (rest, _) =>
                    moduleParse fuel rest { m with functions := m.functions + 1 }
                  | none =>
                    match metadataParse s1 with
                    | some (rest, _) =>
                      moduleParse fuel rest { m with metas := m.metas + 1 }
                    | none => .panicTodo s1

end Psr

end Vicis

namespace Vicis

namespace Spl

theorem alookup_append {α : Type} (k : Nat) (l1 l2 : List (Nat × α)) :
    alookup k (l1 ++ l2) =
      match alookup k l1 with
      | some v => some v
      | none => alookup k l2 := by
  induction l1 with
  | nil => simp [alookup]
  | cons p ps ih =>
    by_cases h : p.1 = k <;> simp [alookup, h, ih]

theorem alookup_mem {α : Type} {k : Nat} {v : α} {l : List (Nat × α)}
    (h : alookup k l = some v) : (k, v) ∈ l := by
  induction l with
  | nil => simp [alookup] at h
  | cons p ps ih =>
    by_cases hk : p.1 = k
    · simp [alookup, hk] at h
      cases p
      simp_all
    · simp [alookup, hk] at h
      exact List.mem_cons_of_mem _ (ih h)

theorem alookup_eq_none {α : Type} {k : Nat} {l : List (Nat × α)}
    (h : ∀ p ∈ l, p.1 ≠ k) : alookup k l = none := by
  induction l with
  | nil => rfl
  | cons p ps ih =>
    have h1 := h p (List.mem_cons_self _ _)
    simp [alookup, h1]
    exact ih fun q hq => h q (List.mem_cons_of_mem _ hq)

theorem alookup_of_mem_nodup {α : Type} {k : Nat} {v : α} {l : List (Nat × α)}
    (hnd : (l.map Prod.fst).Nodup) (hm : (k, v) ∈ l) : alookup k l = some v := by
  induction l with
  | nil => simp at hm
  | cons p ps ih =>
    simp only [List.map_cons, List.nodup_cons] at hnd
    rcases List.mem_cons.mp hm with heq | hmem
    · subst heq
      simp [alookup]
    · have hne : p.1 ≠ k := by
        intro hk
        exact hnd.1 (hk ▸ (List.mem_map.mpr ⟨(k, v), hmem, rfl⟩))
      simp [alookup, hne]
      exact ih hnd.2 hmem

theorem alookup_append_single_self {α : Type} {k : Nat} {v : α}
    {l : List (Nat × α)} (h : ∀ p ∈ l, p.1 ≠ k) :
    alookup k (l ++ [(k, v)]) = some v := by
  rw [alookup_append, alookup_eq_none h]
  simp [alookup]

theorem not_mem_substVReg {l : List Nat} {r n : Nat} (h : n ≠ r) :
    r ∉ substVReg l r n := by
  intro hmem
  rcases List.mem_map.mp hmem with ⟨v, _, hv⟩
  by_cases hvr : v = r
  · simp [hvr] at hv
    exact h hv
  · simp [hvr] at hv

theorem substVReg_of_not_mem {l : List Nat} {r n : Nat} (h : r ∉ l) :
    substVReg l r n = l := by
  induction l with
  | nil => rfl
  | cons a as ih =>
    have ha : a ≠ r := fun hc => h (hc ▸ List.mem_cons_self _ _)
    have has : r ∉ as := fun hc => h (List.mem_cons_of_mem _ hc)
    simp [substVReg, ha] at ih ⊢
    exact ih has

theorem mem_writeUsers {f : MFunction} {r d : Nat} :
    d ∈ writeUsers f r ↔ ∃ inst, (d, inst) ∈ f.insts ∧ r ∈ inst.defs := by
  unfold writeUsers
  constructor
  · intro h
    rcases List.mem_map.mp h with ⟨p, hp, hfst⟩
    rcases List.mem_filter.mp hp with ⟨hmem, hdef⟩
    exact ⟨p.2, by simpa [← hfst] using hmem, by simpa using hdef⟩
  · rintro ⟨inst, hmem, hdef⟩
    exact List.mem_map.mpr ⟨(d, inst), List.mem_filter.mpr ⟨hmem, by simpa using hdef⟩, rfl⟩

theorem mem_readUsers {f : MFunction} {r d : Nat} :
    d ∈ readUsers f r ↔ ∃ inst, (d, inst) ∈ f.insts ∧ r ∈ inst.uses := by
  unfold readUsers
  constructor
  · intro h
    rcases List.mem_map.mp h with ⟨p, hp, hfst⟩
    rcases List.mem_filter.mp hp with ⟨hmem, hdef⟩
    exact ⟨p.2, by simpa [← hfst] using hmem, by simpa using hdef⟩
  · rintro ⟨inst, hmem, hdef⟩
    exact List.mem_map.mpr ⟨(d, inst), List.mem_filter.mpr ⟨hmem, by simpa using hdef⟩, rfl⟩

theorem writeUsers_eq_nil {f : MFunction} {r : Nat} :
    writeUsers f r = [] ↔ ∀ p ∈ f.insts, r ∉ p.2.defs := by
  constructor
  · intro h p hp hdef
    have : p.1 ∈ writeUsers f r := mem_writeUsers.mpr ⟨p.2, by simpa using hp, hdef⟩
    simp [h] at this
  · intro h
    by_contra hne
    rcases List.exists_mem_of_ne_nil _ hne with ⟨d, hd⟩
    rcases mem_writeUsers.mp hd with ⟨inst, hmem, hdef⟩
    exact h (d, inst) hmem hdef

theorem listInsertAfter_of_mem {x : Nat} {l : List Nat} (y : Nat) (h : x ∈ l) :
    ∃ l1 l2, l = l1 ++ x :: l2 ∧ x ∉ l1 ∧
      listInsertAfter x y l = l1 ++ x :: y :: l2 := by
  induction l with
  | nil => simp at h
  | cons a as ih =>
    by_cases hax : a = x
    · subst hax
      exact ⟨[], as, by simp [listInsertAfter]⟩
    · have hmem : x ∈ as := by
        rcases List.mem_cons.mp h with h1 | h1
        · exact absurd h1.symm hax
        · exact h1
      rcases ih hmem with ⟨l1, l2, hdec, hnm, hins⟩
      refine ⟨a :: l1, l2, by simp [hdec], ?_, ?_⟩
      · simp [hnm]
        exact fun hc => hax hc.symm
      · simp [listInsertAfter, hax, hins]

theorem listInsertAfter_of_not_mem {x : Nat} {l : List Nat} (y : Nat) (h : x ∉ l) :
    listInsertAfter x y l = l := by
  induction l with
  | nil => rfl
  | cons a as ih =>
    have hax : a ≠ x := fun hc => h (hc ▸ List.mem_cons_self _ _)
    have has : x ∉ as := fun hc => h (List.mem_cons_of_mem _ hc)
    simp [listInsertAfter, hax, ih has]

theorem listInsertBefore_of_mem {x : Nat} {l : List Nat} (y : Nat) (h : x ∈ l) :
    ∃ l1 l2, l = l1 ++ x :: l2 ∧ x ∉ l1 ∧
      listInsertBefore x y l = l1 ++ y :: x :: l2 := by
  induction l with
  | nil => simp at h
  | cons a as ih =>
    by_cases hax : a = x
    · subst hax
      exact ⟨[], as, by simp [listInsertBefore]⟩
    · have hmem : x ∈ as := by
        rcases List.mem_cons.mp h with h1 | h1
        · exact absurd h1.symm hax
        · exact h1
      rcases ih hmem with ⟨l1, l2, hdec, hnm, hins⟩
      refine ⟨a :: l1, l2, by simp [hdec], ?_, ?_⟩
      · simp [hnm]
        exact fun hc => hax hc.symm
      · simp [listInsertBefore, hax, hins]

theorem listInsertBefore_of_not_mem {x : Nat} {l : List Nat} (y : Nat) (h : x ∉ l) :
    listInsertBefore x y l = l := by
  induction l with
  | nil => rfl
  | cons a as ih =>
    have hax : a ≠ x := fun hc => h (hc ▸ List.mem_cons_self _ _)
    have has : x ∉ as := fun hc => h (List.mem_cons_of_mem _ hc)
    simp [listInsertBefore, hax, ih has]

theorem mem_listInsertAfter {a x y : Nat} {l : List Nat} (h : a ∈ l) :
    a ∈ listInsertAfter x y l := by
  by_cases hx : x ∈ l
  · rcases listInsertAfter_of_mem y hx with ⟨l1, l2, hdec, _, hins⟩
    rw [hins]
    rw [hdec] at h
    simp at h ⊢
    tauto
  · rw [listInsertAfter_of_not_mem y hx]
    exact h

theorem mem_listInsertBefore {a x y : Nat} {l : List Nat} (h : a ∈ l) :
    a ∈ listInsertBefore x y l := by
  by_cases hx : x ∈ l
  · rcases listInsertBefore_of_mem y hx with ⟨l1, l2, hdec, _, hins⟩
    rw [hins]
    rw [hdec] at h
    simp at h ⊢
    tauto
  · rw [listInsertBefore_of_not_mem y hx]
    exact h

theorem listNextAfter_mem {a b : Nat} {l : List Nat}
    (h : listNextAfter a l = some b) : b ∈ l := by
  induction l with
  | nil => simp [listNextAfter] at h
  | cons c cs ih =>
    match cs, h with
    | [], h => simp [listNextAfter] at h
    | d :: ds, h =>
      by_cases hca : c = a
      · simp [listNextAfter, hca] at h
        simp [h]
      · simp only [listNextAfter, hca, if_false] at h
        exact List.mem_cons_of_mem _ (ih h)

theorem listNextAfter_cons (a c : Nat) (rest : List Nat) :
    listNextAfter a (c :: rest) =
      if c = a then rest.head? else listNextAfter a rest := by
  cases rest with
  | nil => by_cases h : c = a <;> simp [listNextAfter, h]
  | cons d ds => rfl

theorem head_listInsertAfter (x y : Nat) (l : List Nat) :
    (listInsertAfter x y l).head? = l.head? := by
  cases l with
  | nil => rfl
  | cons a as =>
    by_cases hax : a = x <;> simp [listInsertAfter, hax]

theorem listNextAfter_listInsertAfter {a x y : Nat} (l : List Nat)
    (hax : a ≠ x) (hay : a ≠ y) :
    listNextAfter a (listInsertAfter x y l) = listNextAfter a l := by
  induction l with
  | nil => rfl
  | cons c cs ih =>
    by_cases hcx : c = x
    · subst hcx
      have hca : c ≠ a := fun h => hax h.symm
      have hya : y ≠ a := fun h => hay h.symm
      simp [listInsertAfter, listNextAfter_cons, hca, hya]
    · simp only [listInsertAfter, hcx, if_false]
      rw [listNextAfter_cons, listNextAfter_cons]
      by_cases hca : c = a
      · simp [hca, head_listInsertAfter]
      · simp [hca, ih]

theorem head_listInsertBefore {x y u : Nat} {l : List Nat}
    (hh : l.head? = some u) (hx : x ≠ u) :
    (listInsertBefore x y l).head? = some u := by
  cases l with
  | nil => simp at hh
  | cons a as =>
    have ha : a = u := by simpa using hh
    subst ha
    have hax : a ≠ x := fun hc => hx hc.symm
    simp [listInsertBefore, hax]

theorem count_listInsertAfter {y u : Nat} (x : Nat) (l : List Nat) (h : y ≠ u) :
    List.count u (listInsertAfter x y l) = List.count u l := by
  by_cases hx : x ∈ l
  · rcases listInsertAfter_of_mem y hx with ⟨l1, l2, hdec, _, hins⟩
    rw [hins, hdec]
    simp [List.count_append, List.count_cons, h]
  · rw [listInsertAfter_of_not_mem y hx]

theorem count_listInsertBefore {y u : Nat} (x : Nat) (l : List Nat) (h : y ≠ u) :
    List.count u (listInsertBefore x y l) = List.count u l := by
  by_cases hx : x ∈ l
  · rcases listInsertBefore_of_mem y hx with ⟨l1, l2, hdec, _, hins⟩
    rw [hins, hdec]
    simp [List.count_append, List.count_cons, h]
  · rw [listInsertBefore_of_not_mem y hx]

theorem listPrevBefore_of_not_mem_tail {u : Nat} (a : Nat) {t : List Nat}
    (h : u ∉ t) : listPrevBefore u (a :: t) = none := by
  induction t generalizing a with
  | nil => rfl
  | cons b bs ih =>
    have hbu : b ≠ u := fun hc => h (hc ▸ List.mem_cons_self _ _)
    have hbs : u ∉ bs := fun hc => h (List.mem_cons_of_mem _ hc)
    simp [listPrevBefore, hbu]
    exact ih b hbs

theorem listPrevBefore_eq_none {u : Nat} {l : List Nat}
    (hh : l.head? = some u) (hc : List.count u l = 1) :
    listPrevBefore u l = none := by
  cases l with
  | nil => simp at hh
  | cons a as =>
    have ha : a = u := by simpa using hh
    subst ha
    have hnm : a ∉ as := by
      intro hmem
      have h1 : List.count a as ≠ 0 := by
        simpa [List.count_eq_zero] using hmem
      simp [List.count_cons] at hc
      omega
    exact listPrevBefore_of_not_mem_tail a hnm

theorem adjPair_listInsertBefore {x y a b : Nat} {l : List Nat}
    (hxb : x ≠ b) (h : adjPair l a b) : adjPair (listInsertBefore x y l) a b := by
  rcases h with ⟨l1, l2, hdec⟩
  subst hdec
  induction l1 with
  | nil =>
    by_cases hax : a = x
    · exact ⟨[y], l2, by simp [listInsertBefore, hax.symm]⟩
    · have h1 : a ≠ x := hax
      have h2 : b ≠ x := fun hc => hxb hc.symm
      simp only [List.nil_append, listInsertBefore, h1, if_false, h2]
      exact ⟨[], listInsertBefore x y l2, by simp [listInsertBefore, h2]⟩
  | cons c cs ih =>
    by_cases hcx : c = x
    · exact ⟨y :: c :: cs, l2, by simp [listInsertBefore, hcx.symm]⟩
    · rcases ih with ⟨m1, m2, hm⟩
      refine ⟨c :: m1, m2, ?_⟩
      simp only [List.cons_append, listInsertBefore, hcx, if_false]
      simp [hm]

theorem instGet_setInst_self (f : MFunction) (i : Nat) (d : MInst) :
    instGet (setInst f i d) i = (instGet f i).map fun _ => d := by
  unfold instGet setInst
  induction f.insts with
  | nil => rfl
  | cons p ps ih =>
    by_cases hp : p.1 = i <;> simp [alookup, hp, ih]

theorem instGet_setInst_ne (f : MFunction) {i j : Nat} (d : MInst) (h : j ≠ i) :
    instGet (setInst f i d) j = instGet f j := by
  unfold instGet setInst
  induction f.insts with
  | nil => rfl
  | cons p ps ih =>
    by_cases hp : p.1 = i
    · have : i ≠ j := fun hc => h hc.symm
      simp [alookup, hp, this, ih]
    · by_cases hq : p.1 = j <;> simp [alookup, hp, hq, h, ih]

theorem instGet_createInst_old (f : MFunction) (d : MInst) {j : Nat}
    (h : j < f.nextInstId) :
    instGet (createInst f d).1 j = instGet f j := by
  unfold instGet createInst
  simp only
  rw [alookup_append]
  cases hc : alookup j f.insts with
  | some v => rfl
  | none =>
    have : f.nextInstId ≠ j := by omega
    simp [alookup, this]

theorem instGet_createInst_new (f : MFunction) (d : MInst)
    (h : ∀ p ∈ f.insts, p.1 < f.nextInstId) :
    instGet (createInst f d).1 f.nextInstId = some d := by
  unfold instGet createInst
  simp only
  exact alookup_append_single_self fun p hp => by
    have := h p hp
    omega

theorem setInst_keys_bound {f : MFunction} {i : Nat} {d : MInst}
    (h : ∀ p ∈ f.insts, p.1 < f.nextInstId) :
    ∀ p ∈ (setInst f i d).insts, p.1 < (setInst f i d).nextInstId := by
  intro p hp
  rcases List.mem_map.mp hp with ⟨q, hq, hqe⟩
  by_cases hqi : q.1 = i
  · simp [hqi] at hqe
    have := h q hq
    simp [setInst, ← hqe]
    omega
  · simp [hqi] at hqe
    subst hqe
    exact h q hq

theorem createInst_keys_bound {f : MFunction} {d : MInst}
    (h : ∀ p ∈ f.insts, p.1 < f.nextInstId) :
    ∀ p ∈ (createInst f d).1.insts, p.1 < (createInst f d).1.nextInstId := by
  intro p hp
  simp [createInst] at hp
  rcases hp with hp | hp
  · have := h p hp
    simp [createInst]
    omega
  · simp [createInst, hp]

theorem blockLayout_setInst (f : MFunction) (i : Nat) (d : MInst) (b : Nat) :
    blockLayout (setInst f i d) b = blockLayout f b := rfl

theorem blockLayout_createInst (f : MFunction) (d : MInst) (b : Nat) :
    blockLayout (createInst f d).1 b = blockLayout f b := rfl

theorem alookup_layout_update_self {α : Type} (l : List (Nat × α)) (b : Nat)
    (g : α → α) :
    alookup b (l.map fun p => if p.1 = b then (p.1, g p.2) else p) =
      (alookup b l).map g := by
  induction l with
  | nil => rfl
  | cons p ps ih =>
    by_cases hp : p.1 = b <;> simp [alookup, hp, ih]

theorem alookup_layout_update_ne {α : Type} (l : List (Nat × α)) {b c : Nat}
    (g : α → α) (h : c ≠ b) :
    alookup c (l.map fun p => if p.1 = b then (p.1, g p.2) else p) =
      alookup c l := by
  induction l with
  | nil => rfl
  | cons p ps ih =>
    by_cases hp : p.1 = b
    · have : b ≠ c := fun hc => h hc.symm
      simp [alookup, hp, this, ih]
    · by_cases hq : p.1 = c <;> simp [alookup, hp, hq, h, ih]

theorem blockLayout_layoutInsertAfter_self (f : MFunction) (a y b : Nat) :
    blockLayout (layoutInsertAfter f a y b) b =
      listInsertAfter a y (blockLayout f b) := by
  unfold blockLayout layoutInsertAfter
  simp only
  rw [alookup_layout_update_self]
  cases alookup b f.layout <;> rfl

theorem blockLayout_layoutInsertAfter_ne (f : MFunction) (a y : Nat) {b c : Nat}
    (h : c ≠ b) :
    blockLayout (layoutInsertAfter f a y b) c = blockLayout f c := by
  unfold blockLayout layoutInsertAfter
  simp only
  rw [alookup_layout_update_ne _ _ h]

theorem blockLayout_layoutInsertBefore_self (f : MFunction) (a y b : Nat) :
    blockLayout (layoutInsertBefore f a y b) b =
      listInsertBefore a y (blockLayout f b) := by
  unfold blockLayout layoutInsertBefore
  simp only
  rw [alookup_layout_update_self]
  cases alookup b f.layout <;> rfl

theorem blockLayout_layoutInsertBefore_ne (f : MFunction) (a y : Nat) {b c : Nat}
    (h : c ≠ b) :
    blockLayout (layoutInsertBefore f a y b) c = blockLayout f c := by
  unfold blockLayout layoutInsertBefore
  simp only
  rw [alookup_layout_update_ne _ _ h]

theorem insert_inst_after_ok {f : MFunction} {lv : LivenessState}
    {a s b : Nat} {fOut : MFunction} {lvOut : LivenessState}
    (h : insert_inst_after f lv a s b = some (fOut, lvOut)) :
    fOut = layoutInsertAfter f a s b ∧ ∃ nxt, next_inst_of f a = some nxt := by
  unfold insert_inst_after at h
  split at h
  · exact absurd h (by simp)
  · rename_i pp1 _
    split at h
    · exact absurd h (by simp)
    · rename_i nxt hnxt
      split at h
      · exact absurd h (by simp)
      · split at h
        · exact absurd h (by simp)
        · simp only [Option.some.injEq, Prod.mk.injEq] at h
          exact ⟨h.1.symm, nxt, hnxt⟩

theorem insert_inst_before_ok {f : MFunction} {lv : LivenessState}
    {a s b : Nat} {fOut : MFunction} {lvOut : LivenessState}
    (h : insert_inst_before f lv a s b = some (fOut, lvOut)) :
    fOut = layoutInsertBefore f a s b ∧ ∃ prv, prev_inst_of f a = some prv := by
  unfold insert_inst_before at h
  split at h
  · exact absurd h (by simp)
  · rename_i pp1 _
    split at h
    · exact absurd h (by simp)
    · rename_i prv hprv
      split at h
      · exact absurd h (by simp)
      · split at h
        · exact absurd h (by simp)
        · simp only [Option.some.injEq, Prod.mk.injEq] at h
          exact ⟨h.1.symm, prv, hprv⟩

theorem insertStoreAfter_ok {f : MFunction} {lv : LivenessState}
    {n slot anchor blk : Nat} {nvs : List Nat} {fOut : MFunction}
    {lvOut : LivenessState} {nv : List Nat}
    (hkey : ∀ p ∈ f.insts, p.1 < f.nextInstId)
    (h : insertStoreAfter f lv n slot anchor blk nvs = .ok (fOut, lvOut, nv)) :
    nv = nvs ∧
    instGet fOut f.nextInstId = some (storeVRegToSlot n slot blk) ∧
    (∀ j, j < f.nextInstId → instGet fOut j = instGet f j) ∧
    blockLayout fOut blk = listInsertAfter anchor f.nextInstId (blockLayout f blk) ∧
    (∀ b, b ≠ blk → blockLayout fOut b = blockLayout f b) ∧
    fOut.nextInstId = f.nextInstId + 1 ∧
    fOut.nextVReg = f.nextVReg ∧
    (∀ p ∈ fOut.insts, p.1 < fOut.nextInstId) := by
  unfold insertStoreAfter at h
  split at h
  · exact absurd h (by simp)
  · rename_i out f4 lv4 heq
    rcases insert_inst_after_ok heq with ⟨hf4, _⟩
    simp only [Except.ok.injEq, Prod.mk.injEq] at h
    rcases h with ⟨hfo, hlvo, hnv⟩
    subst hfo
    subst hf4
    refine ⟨hnv.symm, ?_, ?_, ?_, ?_, rfl, rfl, ?_⟩
    · show instGet (createInst f (storeVRegToSlot n slot blk)).1 f.nextInstId = _
      exact instGet_createInst_new f _ hkey
    · intro j hj
      show instGet (createInst f (storeVRegToSlot n slot blk)).1 j = _
      exact instGet_createInst_old f _ hj
    · show blockLayout (layoutInsertAfter _ anchor (createInst f _).2 blk) blk = _
      rw [blockLayout_layoutInsertAfter_self]
      rfl
    · intro b hb
      show blockLayout (layoutInsertAfter _ anchor (createInst f _).2 blk) b = _
      rw [blockLayout_layoutInsertAfter_ne _ _ _ hb]
      rfl
    · intro p hp
      exact createInst_keys_bound hkey p hp

theorem spillStoreOne_ok {f : MFunction} {lv : LivenessState}
    {r n slot d : Nat} {nvs : List Nat} {fOut : MFunction}
    {lvOut : LivenessState} {nv : List Nat} {dInst : MInst}
    (hkey : ∀ p ∈ f.insts, p.1 < f.nextInstId)
    (hd : instGet f d = some dInst)
    (h : spillStoreOne f lv r n slot d nvs = .ok (fOut, lvOut, nv)) :
    nv = nvs ∧
    instGet fOut d = some (replaceVReg dInst r n) ∧
    instGet fOut f.nextInstId = some (storeVRegToSlot n slot dInst.parent) ∧
    (∀ j, j < f.nextInstId → j ≠ d → instGet fOut j = instGet f j) ∧
    blockLayout fOut dInst.parent
      = listInsertAfter d f.nextInstId (blockLayout f dInst.parent) ∧
    (∀ b, b ≠ dInst.parent → blockLayout fOut b = blockLayout f b) ∧
    fOut.nextInstId = f.nextInstId + 1 ∧ fOut.nextVReg = f.nextVReg ∧
    (∀ p ∈ fOut.insts, p.1 < fOut.nextInstId) := by
  have hdlt : d < f.nextInstId := hkey _ (alookup_mem hd)
  unfold spillStoreOne at h
  rw [hd] at h
  have hkey2 : ∀ p ∈ (setInst f d (replaceVReg dInst r n)).insts,
      p.1 < (setInst f d (replaceVReg dInst r n)).nextInstId :=
    setInst_keys_bound hkey
  rcases insertStoreAfter_ok hkey2 h with ⟨h1, h2, h3, h4, h5, h6, h7, h8⟩
  refine ⟨h1, ?_, h2, ?_, ?_, h5, h6, h7, h8⟩
  · rw [h3 d hdlt, instGet_setInst_self, hd]
    rfl
  · intro j hj hjd
    rw [h3 j hj, instGet_setInst_ne f _ hjd]
  · exact h4

theorem spillStoreTwo_ok {f : MFunction} {lv : LivenessState}
    {r n slot d1 d2 : Nat} {nvs : List Nat} {fOut : MFunction}
    {lvOut : LivenessState} {nv : List Nat} {i1 i2 : MInst}
    (hkey : ∀ p ∈ f.insts, p.1 < f.nextInstId)
    (hd1 : instGet f d1 = some i1) (hd2 : instGet f d2 = some i2)
    (hne : d1 ≠ d2)
    (hcopy : (i1.isCopy = true ∧ i2.isCopy = false) ∨
      (i1.isCopy = false ∧ i2.isCopy = true))
    (h : spillStoreTwo f lv r n slot d1 d2 nvs = .ok (fOut, lvOut, nv)) :
    nv = nvs ∧
    instGet fOut d1 = some (replaceVReg i1 r n) ∧
    instGet fOut d2 = some (replaceVReg i2 r n) ∧
    instGet fOut f.nextInstId =
      some (storeVRegToSlot n slot (if i2.isCopy then i1.parent else i2.parent)) ∧
    (∀ j, j < f.nextInstId → j ≠ d1 → j ≠ d2 → instGet fOut j = instGet f j) ∧
    blockLayout fOut (if i2.isCopy then i1.parent else i2.parent)
      = listInsertAfter (if i2.isCopy then d1 else d2) f.nextInstId
          (blockLayout f (if i2.isCopy then i1.parent else i2.parent)) ∧
    (∀ b, b ≠ (if i2.isCopy then i1.parent else i2.parent) →
      blockLayout fOut b = blockLayout f b) ∧
    fOut.nextInstId = f.nextInstId + 1 ∧ fOut.nextVReg = f.nextVReg ∧
    (∀ p ∈ fOut.insts, p.1 < fOut.nextInstId) := by
  have hdlt1 : d1 < f.nextInstId := hkey _ (alookup_mem hd1)
  have hdlt2 : d2 < f.nextInstId := hkey _ (alookup_mem hd2)
  have hd2get : instGet (setInst f d1 (replaceVReg i1 r n)) d2 = some i2 := by
    rw [instGet_setInst_ne f _ (Ne.symm hne)]
    exact hd2
  simp only [spillStoreTwo, hd1, hd2get] at h
  have hkey3 : ∀ p ∈ (setInst (setInst f d1 (replaceVReg i1 r n)) d2
      (replaceVReg i2 r n)).insts,
      p.1 < (setInst (setInst f d1 (replaceVReg i1 r n)) d2
        (replaceVReg i2 r n)).nextInstId :=
    setInst_keys_bound (setInst_keys_bound hkey)
  rcases hcopy with ⟨hc1, hc2⟩ | ⟨hc1, hc2⟩
  · -- d1 is the copy, d2 the compute def: store goes after d2
    simp only [hc1, hc2, Bool.not_true, Bool.not_false, if_true, if_false,
      ite_true, ite_false] at h ⊢
    rcases insertStoreAfter_ok hkey3 h with ⟨h1, h2, h3, h4, h5, h6, h7, h8⟩
    refine ⟨h1, ?_, ?_, h2, ?_, ?_, h5, h6, h7, h8⟩
    · rw [h3 d1 hdlt1, instGet_setInst_ne _ _ hne, instGet_setInst_self, hd1]
      rfl
    · rw [h3 d2 hdlt2, instGet_setInst_self, hd2get]
      rfl
    · intro j hj hj1 hj2
      rw [h3 j hj, instGet_setInst_ne _ _ hj2, instGet_setInst_ne _ _ hj1]
    · exact h4
  · -- d2 is the copy, d1 the compute def: store goes after d1
    simp only [hc1, hc2, Bool.not_true, Bool.not_false, if_true, if_false,
      ite_true, ite_false] at h ⊢
    rcases insertStoreAfter_ok hkey3 h with ⟨h1, h2, h3, h4, h5, h6, h7, h8⟩
    refine ⟨h1, ?_, ?_, h2, ?_, ?_, h5, h6, h7, h8⟩
    · rw [h3 d1 hdlt1, instGet_setInst_ne _ _ hne, instGet_setInst_self, hd1]
      rfl
    · rw [h3 d2 hdlt2, instGet_setInst_self, hd2get]
      rfl
    · intro j hj hj1 hj2
      rw [h3 j hj, instGet_setInst_ne _ _ hj2, instGet_setInst_ne _ _ hj1]
    · exact h4

theorem bumpVReg_nextInstId (f : MFunction) (ty : Bool) :
    (bumpVReg f ty).nextInstId = f.nextInstId := rfl

theorem bumpVReg_nextVReg (f : MFunction) (ty : Bool) :
    (bumpVReg f ty).nextVReg = f.nextVReg + 1 := rfl

theorem instGet_bumpVReg (f : MFunction) (ty : Bool) (j : Nat) :
    instGet (bumpVReg f ty) j = instGet f j := rfl

theorem blockLayout_bumpVReg (f : MFunction) (ty : Bool) (b : Nat) :
    blockLayout (bumpVReg f ty) b = blockLayout f b := rfl

theorem writeUsers_nodup {f : MFunction} {r : Nat}
    (hnd : (f.insts.map Prod.fst).Nodup) : (writeUsers f r).Nodup := by
  unfold writeUsers
  exact hnd.sublist ((List.filter_sublist _).map _)

theorem readUsers_nodup {f : MFunction} {r : Nat}
    (hnd : (f.insts.map Prod.fst).Nodup) : (readUsers f r).Nodup := by
  unfold readUsers
  exact hnd.sublist ((List.filter_sublist _).map _)

theorem blockLayout_mem_lt {f : MFunction}
    (hlay : ∀ p ∈ f.layout, ∀ i ∈ p.2, i < f.nextInstId) {b i : Nat}
    (h : i ∈ blockLayout f b) : i < f.nextInstId := by
  unfold blockLayout at h
  cases hb : alookup b f.layout with
  | none => rw [hb] at h; simp at h
  | some l =>
    rw [hb] at h
    exact hlay (b, l) (alookup_mem hb) i h

/-- C1: spill store insertion follows the defining-use case split: zero defs
insert no store and leave the state unchanged; one def is rewritten to the
single new vreg with the store inserted directly after it in its block; two
defs (two-address form, one copy) are both rewritten to the one new vreg with
the store inserted directly after the non-copy def and never directly after
the copy; more than two defs abort with the invariant-violation panic. -/
theorem spiller_insert_spill_case_split
    (f : MFunction) (lv : LivenessState) (r slot : Nat)
    (hnd : (f.insts.map Prod.fst).Nodup)
    (hkey : ∀ p ∈ f.insts, p.1 < f.nextInstId)
    (hlay : ∀ p ∈ f.layout, ∀ i ∈ p.2, i < f.nextInstId)
    (hpc : ∀ p ∈ f.insts, p.1 ∈ blockLayout f p.2.parent)
    (htyr : (alookup r f.vregTys).isSome = true) :
    (writeUsers f r = [] → insert_spill f lv r slot [] = .ok (f, lv, [])) ∧
    (∀ d fOut lvOut nv, writeUsers f r = [d] →
      insert_spill f lv r slot [] = .ok (fOut, lvOut, nv) →
      ∃ dInst, instGet f d = some dInst ∧ r ∈ dInst.defs ∧
        nv = [f.nextVReg] ∧
        instGet fOut d = some (replaceVReg dInst r f.nextVReg) ∧
        instGet fOut f.nextInstId =
          some (storeVRegToSlot f.nextVReg slot dInst.parent) ∧
        (∃ l1 l2, blockLayout f dInst.parent = l1 ++ d :: l2 ∧
          blockLayout fOut dInst.parent = l1 ++ d :: f.nextInstId :: l2) ∧
        (∀ b, b ≠ dInst.parent → blockLayout fOut b = blockLayout f b)) ∧
    (∀ d1 d2 i1 i2 fOut lvOut nv, writeUsers f r = [d1, d2] →
      instGet f d1 = some i1 → instGet f d2 = some i2 →
      ((i1.isCopy = true ∧ i2.isCopy = false) ∨
        (i1.isCopy = false ∧ i2.isCopy = true)) →
      insert_spill f lv r slot [] = .ok (fOut, lvOut, nv) →
      nv = [f.nextVReg] ∧
      instGet fOut d1 = some (replaceVReg i1 r f.nextVReg) ∧
      instGet fOut d2 = some (replaceVReg i2 r f.nextVReg) ∧
      instGet fOut f.nextInstId = some (storeVRegToSlot f.nextVReg slot
        (if i2.isCopy then i1.parent else i2.parent)) ∧
      (∃ l1 l2, blockLayout f (if i2.isCopy then i1.parent else i2.parent)
          = l1 ++ (if i2.isCopy then d1 else d2) :: l2 ∧
        blockLayout fOut (if i2.isCopy then i1.parent else i2.parent)
          = l1 ++ (if i2.isCopy then d1 else d2) :: f.nextInstId :: l2) ∧
      (∀ b, b ≠ (if i2.isCopy then i1.parent else i2.parent) →
        blockLayout fOut b = blockLayout f b) ∧
      listNextAfter (if i2.isCopy then d2 else d1)
        (blockLayout fOut (if i2.isCopy then i2.parent else i1.parent))
        ≠ some f.nextInstId) ∧
    (∀ d1 d2 d3 ds, writeUsers f r = d1 :: d2 :: d3 :: ds →
      insert_spill f lv r slot [] = .error .invalid) := by
  rcases Option.isSome_iff_exists.mp htyr with ⟨ty, hty⟩
  refine ⟨?_, ?_, ?_, ?_⟩
  · intro hw
    simp [insert_spill, hw]
  · intro d fOut lvOut nv hw hok
    have hdmem : d ∈ writeUsers f r := by simp [hw]
    rcases mem_writeUsers.mp hdmem with ⟨dInst, hdi, hrdef⟩
    have hdget : instGet f d = some dInst := alookup_of_mem_nodup hnd hdi
    simp only [insert_spill, hw, createFrom, hty, List.cons_ne_nil, if_false,
      ite_false, List.nil_append] at hok
    rcases spillStoreOne_ok (f := bumpVReg f ty) hkey hdget hok with
      ⟨c1, c2, c3, _, c5, c6, _, _, _⟩
    simp only [bumpVReg_nextInstId, instGet_bumpVReg, blockLayout_bumpVReg]
      at c2 c3 c5 c6
    have hdmemL : d ∈ blockLayout f dInst.parent := hpc (d, dInst) (alookup_mem hdget)
    rcases listInsertAfter_of_mem f.nextInstId hdmemL with ⟨l1, l2, hdec, _, hins⟩
    refine ⟨dInst, hdget, hrdef, c1, c2, c3, ⟨l1, l2, hdec, ?_⟩, c6⟩
    rw [show blockLayout fOut dInst.parent =
      listInsertAfter d f.nextInstId (blockLayout f dInst.parent) from c5, hins]
  · intro d1 d2 i1 i2 fOut lvOut nv hw hd1 hd2 hcopy hok
    have hwnd : (writeUsers f r).Nodup := writeUsers_nodup hnd
    rw [hw] at hwnd
    have hne : d1 ≠ d2 := by simp at hwnd; exact hwnd
    simp only [insert_spill, hw, createFrom, hty, List.cons_ne_nil, if_false,
      ite_false, List.nil_append] at hok
    rcases spillStoreTwo_ok (f := bumpVReg f ty) hkey hd1 hd2 hne hcopy hok
      with ⟨c1, c2, c3, c4, _, c6, c7, _, _, _⟩
    simp only [bumpVReg_nextInstId, instGet_bumpVReg, blockLayout_bumpVReg]
      at c2 c3 c4 c6 c7
    have hlt1 : d1 < f.nextInstId := hkey _ (alookup_mem hd1)
    have hlt2 : d2 < f.nextInstId := hkey _ (alookup_mem hd2)
    refine ⟨c1, c2, c3, c4, ?_, c7, ?_⟩
    · have hamem : (if i2.isCopy then d1 else d2) ∈
          blockLayout f (if i2.isCopy then i1.parent else i2.parent) := by
        by_cases hic : i2.isCopy = true <;> simp only [hic, if_true, if_false,
          ite_true, ite_false]
        · exact hpc (d1, i1) (alookup_mem hd1)
        · exact hpc (d2, i2) (alookup_mem hd2)
      rcases listInsertAfter_of_mem f.nextInstId hamem with ⟨l1, l2, hdec, _, hins⟩
      refine ⟨l1, l2, hdec, ?_⟩
      rw [show blockLayout fOut (if i2.isCopy then i1.parent else i2.parent) =
        listInsertAfter (if i2.isCopy then d1 else d2) f.nextInstId
          (blockLayout f (if i2.isCopy then i1.parent else i2.parent)) from c6,
        hins]
    · intro heq
      have hsmem : f.nextInstId ∈ blockLayout f (if i2.isCopy then i2.parent
          else i1.parent) := by
        by_cases hpp : (if i2.isCopy then i2.parent else i1.parent)
            = (if i2.isCopy then i1.parent else i2.parent)
        · rw [hpp] at heq
          rw [show blockLayout fOut (if i2.isCopy then i1.parent else i2.parent) =
            listInsertAfter (if i2.isCopy then d1 else d2) f.nextInstId
              (blockLayout f (if i2.isCopy then i1.parent else i2.parent))
            from c6] at heq
          have hax : (if i2.isCopy then d2 else d1) ≠ (if i2.isCopy then d1 else d2) := by
            by_cases hic : i2.isCopy = true <;>
              simp only [hic, ite_true, ite_false]
            · exact Ne.symm hne
            · exact hne
          have hay : (if i2.isCopy then d2 else d1) ≠ f.nextInstId := by
            cases hb : i2.isCopy <;> simp [hb] <;> omega
          rw [listNextAfter_listInsertAfter _ hax hay] at heq
          rw [hpp]
          exact listNextAfter_mem heq
        · rw [c7 _ hpp] at heq
          exact listNextAfter_mem heq
      have := blockLayout_mem_lt hlay hsmem
      omega
  · intro d1 d2 d3 ds hw
    simp [insert_spill, hw, createFrom, hty]

/-- Witness for C1: the case-split theorem applied to the concrete
two-address function, with every hypothesis discharged by computation. -/
theorem spiller_insert_spill_case_split_witness :
    writeUsers exTwoAddr 0 = [10, 12] ∧
    insert_spill exTwoAddr exTwoAddrLv 0 0 [] =
      .ok (exTwoAddrOutF, exTwoAddrOutLv, [1]) ∧
    instGet exTwoAddrOutF 13 = some (storeVRegToSlot 1 0 0) ∧
    listNextAfter 12 (blockLayout exTwoAddrOutF 0) ≠ some 13 := by
  have h := (spiller_insert_spill_case_split exTwoAddr exTwoAddrLv 0 0
    (by decide) (by decide) (by decide) (by decide) (by decide)).2.2.1
  have h2 := h 10 12 ⟨0, [0], [], false, .plain⟩ ⟨0, [0], [], true, .plain⟩
    exTwoAddrOutF exTwoAddrOutLv [1] (by decide) (by decide) (by decide)
    (Or.inr ⟨rfl, rfl⟩) rfl
  exact ⟨by decide, rfl, h2.2.2.2.1, h2.2.2.2.2.2.2⟩

/-- Counterexample for C2: spilling vreg 0 of `exOneDef` (one def, three
reads at 11, 12, 13) creates exactly two new vregs in total — one for the
store and a single shared one for all reloads — and rewrites all three
reading uses to the same vreg 2, so there are no three distinct fresh
read-vregs. -/
theorem spiller_insert_reload_per_use_vreg_cex :
    spillResultVRegs (spill exOneDef exOneDefLv 0) = [1, 2] ∧
    spillResultUses (spill exOneDef exOneDefLv 0) 11 = [2] ∧
    spillResultUses (spill exOneDef exOneDefLv 0) 12 = [2] ∧
    spillResultUses (spill exOneDef exOneDefLv 0) 13 = [2] := by
  exact ⟨by decide, by decide, by decide, by decide⟩

theorem reloadStep_ok {f : MFunction} {lv : LivenessState} {r n slot u : Nat}
    {f3 : MFunction} {lv3 : LivenessState}
    (hkey : ∀ p ∈ f.insts, p.1 < f.nextInstId)
    (h : reloadStep f lv r n slot u = .ok (f3, lv3)) :
    ∃ inst, instGet f u = some inst ∧
      instGet f3 u = some (replaceVReg inst r n) ∧
      instGet f3 f.nextInstId = some (loadFromSlot n slot inst.parent) ∧
      (∀ k, k < f.nextInstId → k ≠ u → instGet f3 k = instGet f k) ∧
      blockLayout f3 inst.parent
        = listInsertBefore u f.nextInstId (blockLayout f inst.parent) ∧
      (∀ b, b ≠ inst.parent → blockLayout f3 b = blockLayout f b) ∧
      f3.nextInstId = f.nextInstId + 1 ∧
      (∀ p ∈ f3.insts, p.1 < f3.nextInstId) := by
  cases hu : instGet f u with
  | none => simp [reloadStep, hu] at h
  | some inst =>
    simp only [reloadStep, hu] at h
    have hult : u < f.nextInstId := hkey _ (alookup_mem hu)
    have hkey2 : ∀ p ∈ (setInst f u (replaceVReg inst r n)).insts,
        p.1 < (setInst f u (replaceVReg inst r n)).nextInstId :=
      setInst_keys_bound hkey
    refine ⟨inst, rfl, ?_⟩
    split at h
    · exact absurd h (by simp)
    · rename_i out fo lvo heq
      rcases insert_inst_before_ok heq with ⟨hfo, _⟩
      simp only [Except.ok.injEq, Prod.mk.injEq] at h
      rcases h with ⟨hf3, hlv3⟩
      subst hf3
      subst hfo
      refine ⟨?_, ?_, ?_, ?_, ?_, rfl, ?_⟩
      · show instGet (createInst (setInst f u (replaceVReg inst r n))
          (loadFromSlot n slot inst.parent)).1 u = _
        rw [instGet_createInst_old _ _
            (show u < (setInst f u (replaceVReg inst r n)).nextInstId from hult),
          instGet_setInst_self, hu]
        rfl
      · show instGet (createInst (setInst f u (replaceVReg inst r n))
          (loadFromSlot n slot inst.parent)).1 f.nextInstId = _
        exact instGet_createInst_new _ _ hkey2
      · intro k hk hku
        show instGet (createInst (setInst f u (replaceVReg inst r n))
          (loadFromSlot n slot inst.parent)).1 k = _
        rw [instGet_createInst_old _ _
            (show k < (setInst f u (replaceVReg inst r n)).nextInstId from hk),
          instGet_setInst_ne f _ hku]
      · show blockLayout (layoutInsertBefore _ u (createInst _ _).2
          inst.parent) inst.parent = _
        rw [blockLayout_layoutInsertBefore_self]
        rfl
      · intro b hb
        show blockLayout (layoutInsertBefore _ u (createInst _ _).2
          inst.parent) b = _
        rw [blockLayout_layoutInsertBefore_ne _ _ _ hb]
        rfl
      · intro p hp
        exact createInst_keys_bound hkey2 p hp

theorem reloadLoop_facts (r n slot : Nat) :
    ∀ (us : List Nat) (f : MFunction) (lv : LivenessState)
      (fOut : MFunction) (lvOut : LivenessState),
      reloadLoop f lv r n slot us = .ok (fOut, lvOut) →
      us.Nodup →
      (∀ p ∈ f.insts, p.1 < f.nextInstId) →
      (∀ u ∈ us, u < f.nextInstId) →
      (∀ u ∈ us, ∀ d, instGet f u = some d → u ∈ blockLayout f d.parent) →
      (∀ u ∈ us, ∃ inst, instGet f u = some inst ∧
        instGet fOut u = some (replaceVReg inst r n) ∧
        ∃ lId, instGet fOut lId = some (loadFromSlot n slot inst.parent) ∧
          adjPair (blockLayout fOut inst.parent) lId u) ∧
      (∀ k, k < f.nextInstId → k ∉ us → instGet fOut k = instGet f k) ∧
      (∀ blk a b, b < f.nextInstId → b ∉ us →
        adjPair (blockLayout f blk) a b → adjPair (blockLayout fOut blk) a b) ∧
      f.nextInstId ≤ fOut.nextInstId ∧
      (∀ p ∈ fOut.insts, p.1 < fOut.nextInstId)
  | [], f, lv, fOut, lvOut => by
    intro hok hnd hkey hbound hconts
    simp only [reloadLoop, Except.ok.injEq, Prod.mk.injEq] at hok
    rcases hok with ⟨h1, h2⟩
    subst h1
    exact ⟨by simp, fun k _ _ => rfl, fun blk a b _ _ h => h,
      Nat.le_refl _, hkey⟩
  | u :: rest, f, lv, fOut, lvOut => by
    intro hok hnd hkey hbound hconts
    cases hstep : reloadStep f lv r n slot u with
    | error e => simp [reloadLoop, hstep] at hok
    | ok out =>
      obtain ⟨f3, lv3⟩ := out
      simp only [reloadLoop, hstep] at hok
      rcases reloadStep_ok hkey hstep with
        ⟨inst, hu, hru, hload, hpres, hlayEq, hlayNe, hnid, hkey3⟩
      have hult : u < f.nextInstId := hbound u (List.mem_cons_self _ _)
      have hndr : rest.Nodup := (List.nodup_cons.mp hnd).2
      have hunr : u ∉ rest := (List.nodup_cons.mp hnd).1
      have hnidr : f.nextInstId ∉ rest := fun hc =>
        absurd (hbound _ (List.mem_cons_of_mem _ hc)) (Nat.lt_irrefl _)
      have hbound3 : ∀ v ∈ rest, v < f3.nextInstId := by
        intro v hv
        have := hbound v (List.mem_cons_of_mem _ hv)
        omega
      have hmemPres : ∀ x blk, x ∈ blockLayout f blk → x ∈ blockLayout f3 blk := by
        intro x blk hx
        by_cases hb : blk = inst.parent
        · subst hb
          rw [hlayEq]
          exact mem_listInsertBefore hx
        · rw [hlayNe blk hb]
          exact hx
      have hconts3 : ∀ v ∈ rest, ∀ d, instGet f3 v = some d →
          v ∈ blockLayout f3 d.parent := by
        intro v hv d hd
        have hvne : v ≠ u := fun hc => hunr (hc ▸ hv)
        have hvlt : v < f.nextInstId := hbound v (List.mem_cons_of_mem _ hv)
        rw [hpres v hvlt hvne] at hd
        exact hmemPres v _ (hconts v (List.mem_cons_of_mem _ hv) d hd)
      rcases reloadLoop_facts r n slot rest f3 lv3 fOut lvOut hok hndr hkey3
        hbound3 hconts3 with ⟨ih1, ih2, ih3, ih4, ih5⟩
      refine ⟨?_, ?_, ?_, by omega, ih5⟩
      · intro v hv
        rcases List.mem_cons.mp hv with hveq | hvr
        · subst hveq
          refine ⟨inst, hu, ?_, f.nextInstId, ?_, ?_⟩
          · rw [ih2 v (by omega) hunr, hru]
          · rw [ih2 f.nextInstId (by omega) hnidr, hload]
          · have humem : v ∈ blockLayout f inst.parent :=
              hconts v (List.mem_cons_self _ _) inst hu
            rcases listInsertBefore_of_mem f.nextInstId humem with
              ⟨m1, m2, hdec, hnm, hins⟩
            have hadj3 : adjPair (blockLayout f3 inst.parent) f.nextInstId v := by
              rw [hlayEq, hins]
              exact ⟨m1, m2, rfl⟩
            exact ih3 inst.parent f.nextInstId v (by omega) hunr hadj3
        · rcases ih1 v hvr with ⟨inst2, hinst2, hrw2, lId, hload2, hadj2⟩
          have hvne : v ≠ u := fun hc => hunr (hc ▸ hvr)
          have hvlt : v < f.nextInstId := hbound v (List.mem_cons_of_mem _ hvr)
          rw [hpres v hvlt hvne] at hinst2
          exact ⟨inst2, hinst2, hrw2, lId, hload2, hadj2⟩
      · intro k hk hknot
        have hkne : k ≠ u := fun hc => hknot (hc ▸ List.mem_cons_self _ _)
        have hknr : k ∉ rest := fun hc => hknot (List.mem_cons_of_mem _ hc)
        rw [ih2 k (by omega) hknr, hpres k hk hkne]
      · intro blk a b hb hbnot hadj
        have hbne : b ≠ u := fun hc => hbnot (hc ▸ List.mem_cons_self _ _)
        have hbnr : b ∉ rest := fun hc => hbnot (List.mem_cons_of_mem _ hc)
        have hadj3 : adjPair (blockLayout f3 blk) a b := by
          by_cases hbp : blk = inst.parent
          · subst hbp
            rw [hlayEq]
            exact adjPair_listInsertBefore (fun hc => hbne hc.symm) hadj
          · rw [hlayNe blk hbp]
            exact hadj
        exact ih3 blk a b (by omega) hbnr hadj3

/-- C2 (amended): reload insertion rewrites every reading use of the spilled
vreg to ONE fresh vreg shared by all uses (not one fresh vreg per use), and
inserts a separate load from the spill slot directly before each reading use
in that use's block. -/
theorem spiller_insert_reload_shared_vreg
    (f : MFunction) (lv : LivenessState) (r slot : Nat)
    (nv0 : List Nat) (fOut : MFunction) (lvOut : LivenessState) (nv : List Nat)
    (hnd : (f.insts.map Prod.fst).Nodup)
    (hkey : ∀ p ∈ f.insts, p.1 < f.nextInstId)
    (hpc : ∀ p ∈ f.insts, p.1 ∈ blockLayout f p.2.parent)
    (hok : insert_reload f lv r slot nv0 = .ok (fOut, lvOut, nv)) :
    (readUsers f r = [] → fOut = f ∧ nv = nv0) ∧
    (readUsers f r ≠ [] →
      nv = nv0 ++ [f.nextVReg] ∧
      ∀ u ∈ readUsers f r, ∃ inst, instGet f u = some inst ∧ r ∈ inst.uses ∧
        instGet fOut u = some (replaceVReg inst r f.nextVReg) ∧
        ∃ lId, instGet fOut lId =
            some (loadFromSlot f.nextVReg slot inst.parent) ∧
          adjPair (blockLayout fOut inst.parent) lId u) := by
  constructor
  · intro hemp
    simp only [insert_reload, hemp, if_true, ite_true, Except.ok.injEq,
      Prod.mk.injEq] at hok
    exact ⟨hok.1.symm, hok.2.2.symm⟩
  · intro hne
    rw [insert_reload, if_neg hne] at hok
    cases hty : alookup r f.vregTys with
    | none => simp [createFrom, hty] at hok
    | some ty =>
      simp only [createFrom, hty] at hok
      cases hloop : reloadLoop (bumpVReg f ty) lv r f.nextVReg slot
          (readUsers f r) with
      | error e => rw [hloop] at hok; exact absurd hok (by simp)
      | ok out =>
        obtain ⟨f2, lv2⟩ := out
        rw [hloop] at hok
        simp only [Except.ok.injEq, Prod.mk.injEq] at hok
        rcases hok with ⟨hf2, _, hnv⟩
        subst hf2
        refine ⟨hnv.symm, ?_⟩
        have hbound : ∀ u ∈ readUsers f r, u < f.nextInstId := by
          intro u hu
          rcases mem_readUsers.mp hu with ⟨inst, hmem, _⟩
          exact hkey _ hmem
        have hconts : ∀ u ∈ readUsers f r, ∀ d,
            instGet (bumpVReg f ty) u = some d →
            u ∈ blockLayout (bumpVReg f ty) d.parent := by
          intro u _ d hd
          exact hpc (u, d) (alookup_mem hd)
        rcases reloadLoop_facts r f.nextVReg slot (readUsers f r)
          (bumpVReg f ty) lv f2 lv2 hloop (readUsers_nodup hnd) hkey
          hbound hconts with ⟨ih1, _, _, _, _⟩
        intro u hu
        rcases ih1 u hu with ⟨inst, hinst, hrw, lId, hload, hadj⟩
        rcases mem_readUsers.mp hu with ⟨inst0, hmem0, hr0⟩
        have : instGet f u = some inst0 := alookup_of_mem_nodup hnd hmem0
        have hinstf : instGet f u = some inst := hinst
        have heq : inst = inst0 := by
          rw [this] at hinstf
          exact (Option.some.injEq _ _ ▸ hinstf).symm
        exact ⟨inst, hinstf, heq ▸ hr0, hrw, lId, hload, hadj⟩

/-- Witness for C2's amended theorem: applied to `exOneDef`, whose vreg 0 is
read at 11, 12 and 13, with every hypothesis discharged by computation. -/
theorem spiller_insert_reload_shared_vreg_witness :
    readUsers exOneDef 0 = [11, 12, 13] ∧
    insert_reload exOneDef exOneDefLv 0 0 [] =
      .ok (exOneDefReloadF, exOneDefReloadLv, [1]) ∧
    (∀ u ∈ readUsers exOneDef 0, ∃ inst, instGet exOneDef u = some inst ∧
      0 ∈ inst.uses ∧
      instGet exOneDefReloadF u = some (replaceVReg inst 0 1) ∧
      ∃ lId, instGet exOneDefReloadF lId = some (loadFromSlot 1 0 inst.parent) ∧
        adjPair (blockLayout exOneDefReloadF inst.parent) lId u) := by
  have h := (spiller_insert_reload_shared_vreg exOneDef exOneDefLv 0 0 []
    exOneDefReloadF exOneDefReloadLv [1] (by decide) (by decide) (by decide)
    rfl).2 (by decide)
  exact ⟨by decide, rfl, h.2⟩

theorem readUsers_eq_nil {f : MFunction} {r : Nat} :
    readUsers f r = [] ↔ ∀ p ∈ f.insts, r ∉ p.2.uses := by
  constructor
  · intro h p hp huse
    have : p.1 ∈ readUsers f r := mem_readUsers.mpr ⟨p.2, by simpa using hp, huse⟩
    simp [h] at this
  · intro h
    by_contra hne
    rcases List.exists_mem_of_ne_nil _ hne with ⟨d, hd⟩
    rcases mem_readUsers.mp hd with ⟨inst, hmem, huse⟩
    exact h (d, inst) hmem huse

theorem mem_setInst {f : MFunction} {i : Nat} {d : MInst} {p : Nat × MInst}
    (hp : p ∈ (setInst f i d).insts) :
    p = (i, d) ∨ (p ∈ f.insts ∧ p.1 ≠ i) := by
  rcases List.mem_map.mp hp with ⟨q, hq, he⟩
  by_cases hqi : q.1 = i
  · simp only [hqi, if_true, ite_true] at he
    left
    exact he.symm
  · simp only [hqi, if_false, ite_false] at he
    right
    exact ⟨he ▸ hq, he ▸ hqi⟩

theorem insertStoreAfter_insts {f : MFunction} {lv : LivenessState}
    {n slot anchor blk : Nat} {nvs : List Nat} {fOut : MFunction}
    {lvOut : LivenessState} {nv : List Nat}
    (h : insertStoreAfter f lv n slot anchor blk nvs = .ok (fOut, lvOut, nv)) :
    fOut.insts = f.insts ++ [(f.nextInstId, storeVRegToSlot n slot blk)] ∧
    nv = nvs ∧ fOut.nextVReg = f.nextVReg := by
  unfold insertStoreAfter at h
  split at h
  · exact absurd h (by simp)
  · rename_i out f4 lv4 heq
    rcases insert_inst_after_ok heq with ⟨hf4, _⟩
    simp only [Except.ok.injEq, Prod.mk.injEq] at h
    rcases h with ⟨hfo, _, hnv⟩
    subst hfo
    subst hf4
    exact ⟨rfl, hnv.symm, rfl⟩

theorem reloadStep_insts {f : MFunction} {lv : LivenessState}
    {r n slot u : Nat} {f3 : MFunction} {lv3 : LivenessState}
    (h : reloadStep f lv r n slot u = .ok (f3, lv3)) :
    ∃ inst, instGet f u = some inst ∧
      f3.insts = (setInst f u (replaceVReg inst r n)).insts
        ++ [(f.nextInstId, loadFromSlot n slot inst.parent)] := by
  cases hu : instGet f u with
  | none => simp [reloadStep, hu] at h
  | some inst =>
    simp only [reloadStep, hu] at h
    refine ⟨inst, rfl, ?_⟩
    split at h
    · exact absurd h (by simp)
    · rename_i out fo lvo heq
      rcases insert_inst_before_ok heq with ⟨hfo, _⟩
      simp only [Except.ok.injEq, Prod.mk.injEq] at h
      rcases h with ⟨hf3, _⟩
      subst hf3
      subst hfo
      rfl

theorem reloadLoop_no_r (r n slot : Nat) (hrn : r ≠ n) :
    ∀ (us : List Nat) (f : MFunction) (lv : LivenessState)
      (fOut : MFunction) (lvOut : LivenessState),
      reloadLoop f lv r n slot us = .ok (fOut, lvOut) →
      (∀ p ∈ f.insts, r ∉ p.2.defs) →
      (∀ p ∈ f.insts, r ∈ p.2.uses → p.1 ∈ us) →
      ∀ p ∈ fOut.insts, r ∉ p.2.defs ∧ r ∉ p.2.uses
  | [], f, lv, fOut, lvOut => by
    intro hok hdefs huses
    simp only [reloadLoop, Except.ok.injEq, Prod.mk.injEq] at hok
    rcases hok with ⟨h1, _⟩
    subst h1
    intro p hp
    exact ⟨hdefs p hp, fun hc => by simpa using huses p hp hc⟩
  | u :: rest, f, lv, fOut, lvOut => by
    intro hok hdefs huses
    cases hstep : reloadStep f lv r n slot u with
    | error e => simp [reloadLoop, hstep] at hok
    | ok out =>
      obtain ⟨f3, lv3⟩ := out
      simp only [reloadLoop, hstep] at hok
      rcases reloadStep_insts hstep with ⟨inst, hu, hinsts⟩
      have hnr : n ≠ r := fun hc => hrn hc.symm
      have hdefs3 : ∀ p ∈ f3.insts, r ∉ p.2.defs := by
        intro p hp
        rw [hinsts] at hp
        rcases List.mem_append.mp hp with hp | hp
        · rcases mem_setInst hp with heq | ⟨hmem, _⟩
          · subst heq
            exact not_mem_substVReg hnr
          · exact hdefs p hmem
        · simp at hp
          subst hp
          simp [loadFromSlot]
          omega
      have huses3 : ∀ p ∈ f3.insts, r ∈ p.2.uses → p.1 ∈ rest := by
        intro p hp huse
        rw [hinsts] at hp
        rcases List.mem_append.mp hp with hp | hp
        · rcases mem_setInst hp with heq | ⟨hmem, hne⟩
          · subst heq
            exact absurd huse (not_mem_substVReg hnr)
          · have := huses p hmem huse
            rcases List.mem_cons.mp this with h1 | h1
            · exact absurd h1 hne
            · exact h1
        · simp at hp
          subst hp
          simp [loadFromSlot] at huse
      exact reloadLoop_no_r r n slot hrn rest f3 lv3 fOut lvOut hok hdefs3 huses3

theorem insert_spill_no_def_refs {f : MFunction} {lv : LivenessState}
    {r slot : Nat} {nv0 : List Nat} {f1 : MFunction} {lv1 : LivenessState}
    {nv1 : List Nat}
    (h : insert_spill f lv r slot nv0 = .ok (f1, lv1, nv1))
    (hrn : r ≠ f.nextVReg) :
    (∀ p ∈ f1.insts, r ∉ p.2.defs) ∧
    (nv1 = nv0 ∨ nv1 = nv0 ++ [f.nextVReg]) ∧
    f.nextVReg ≤ f1.nextVReg := by
  unfold insert_spill at h
  split at h
  · rename_i hemp
    simp only [Except.ok.injEq, Prod.mk.injEq] at h
    rcases h with ⟨h1, _, h3⟩
    subst h1
    exact ⟨fun p hp => writeUsers_eq_nil.mp hemp p hp, Or.inl h3.symm,
      Nat.le_refl _⟩
  · rename_i hne
    cases hty : alookup r f.vregTys with
    | none => simp [createFrom, hty] at h
    | some ty =>
      simp only [createFrom, hty] at h
      have hnr : f.nextVReg ≠ r := fun hc => hrn hc.symm
      split at h
      · -- one def d
        rename_i d hw
        cases hd : instGet (bumpVReg f ty) d with
        | none => simp [spillStoreOne, hd] at h
        | some dInst =>
          simp only [spillStoreOne, hd] at h
          rcases insertStoreAfter_insts h with ⟨hinsts, hnv, hnvreg⟩
          refine ⟨?_, Or.inr hnv, by rw [hnvreg]; exact Nat.le_succ _⟩
          intro p hp
          rw [hinsts] at hp
          rcases List.mem_append.mp hp with hp | hp
          · rcases mem_setInst hp with heq | ⟨hmem, hpne⟩
            · subst heq
              exact not_mem_substVReg hnr
            · intro hdef
              have : p.1 ∈ writeUsers f r :=
                mem_writeUsers.mpr ⟨p.2, by simpa using hmem, hdef⟩
              rw [hw] at this
              simp at this
              exact hpne this
          · simp at hp
            subst hp
            simp [storeVRegToSlot]
      · -- two defs d1 d2
        rename_i d1 d2 hw
        cases hd1 : instGet (bumpVReg f ty) d1 with
        | none => simp [spillStoreTwo, hd1] at h
        | some i1 =>
          cases hd2 : instGet (setInst (bumpVReg f ty) d1
              (replaceVReg i1 r f.nextVReg)) d2 with
          | none => simp [spillStoreTwo, hd1, hd2] at h
          | some i2 =>
            simp only [spillStoreTwo, hd1, hd2] at h
            split at h
            · rcases insertStoreAfter_insts h with ⟨hinsts, hnv, hnvreg⟩
              refine ⟨?_, Or.inr hnv, by rw [hnvreg]; exact Nat.le_succ _⟩
              intro p hp
              rw [hinsts] at hp
              rcases List.mem_append.mp hp with hp | hp
              · rcases mem_setInst hp with heq | ⟨hmem2, hpne2⟩
                · subst heq
                  exact not_mem_substVReg hnr
                · rcases mem_setInst hmem2 with heq | ⟨hmem1, hpne1⟩
                  · subst heq
                    exact not_mem_substVReg hnr
                  · intro hdef
                    have : p.1 ∈ writeUsers f r :=
                      mem_writeUsers.mpr ⟨p.2, by simpa using hmem1, hdef⟩
                    rw [hw] at this
                    simp at this
                    rcases this with h1 | h1
                    · exact hpne1 h1
                    · exact hpne2 h1
              · simp at hp
                subst hp
                simp [storeVRegToSlot]
            · exact absurd h (by simp)
      · -- three or more defs
        exact absurd h (by simp)

theorem insert_reload_no_refs {f1 : MFunction} {lv1 : LivenessState}
    {r slot : Nat} {nv1 : List Nat} {f2 : MFunction} {lv2 : LivenessState}
    {nv2 : List Nat}
    (hrn : r ≠ f1.nextVReg)
    (hdefs : ∀ p ∈ f1.insts, r ∉ p.2.defs)
    (h : insert_reload f1 lv1 r slot nv1 = .ok (f2, lv2, nv2)) :
    (∀ p ∈ f2.insts, r ∉ p.2.defs ∧ r ∉ p.2.uses) ∧
    (nv2 = nv1 ∨ nv2 = nv1 ++ [f1.nextVReg]) := by
  unfold insert_reload at h
  split at h
  · rename_i hemp
    simp only [Except.ok.injEq, Prod.mk.injEq] at h
    rcases h with ⟨h1, _, h3⟩
    subst h1
    exact ⟨fun p hp => ⟨hdefs p hp, readUsers_eq_nil.mp hemp p hp⟩,
      Or.inl h3.symm⟩
  · cases hty : alookup r f1.vregTys with
    | none => simp [createFrom, hty] at h
    | some ty =>
      simp only [createFrom, hty] at h
      cases hloop : reloadLoop (bumpVReg f1 ty) lv1 r f1.nextVReg slot
          (readUsers f1 r) with
      | error e => rw [hloop] at h; exact absurd h (by simp)
      | ok out =>
        obtain ⟨f2b, lv2b⟩ := out
        rw [hloop] at h
        simp only [Except.ok.injEq, Prod.mk.injEq] at h
        rcases h with ⟨hf2, _, hnv⟩
        subst hf2
        refine ⟨?_, Or.inr hnv.symm⟩
        exact reloadLoop_no_r r f1.nextVReg slot hrn (readUsers f1 r)
          (bumpVReg f1 ty) lv1 f2b lv2b hloop hdefs
          (fun p hp huse => mem_readUsers.mpr ⟨p.2, by simpa using hp, huse⟩)

theorem foldl_computeLiveRanges (lv : LivenessState) (nvs : List Nat) :
    (nvs.foldl computeLiveRanges lv).ranges = lv.ranges ++ nvs := by
  induction nvs generalizing lv with
  | nil => simp
  | cons v vs ih =>
    simp only [List.foldl_cons, ih, computeLiveRanges]
    simp

/-- C4: after a successful spill of vreg `r`, no remaining machine
instruction references `r` in any operand position, every newly created vreg
has a live range computed for it, and `r`'s own live range is removed. -/
theorem spiller_spill_clears_vreg
    (f : MFunction) (lv : LivenessState) (r : Nat)
    (fOut : MFunction) (lvOut : LivenessState) (nv : List Nat)
    (hr : r < f.nextVReg)
    (hok : spill f lv r = .ok (fOut, lvOut, nv)) :
    (∀ p ∈ fOut.insts, r ∉ p.2.defs ∧ r ∉ p.2.uses) ∧
    (∀ v ∈ nv, v ∈ lvOut.ranges) ∧
    r ∉ lvOut.ranges := by
  unfold spill at hok
  split at hok
  · exact absurd hok (by simp)
  · rename_i ty hty
    split at hok
    · exact absurd hok (by simp)
    · cases hsp : insert_spill { f with numSlots := f.numSlots + 1 } lv r
          f.numSlots [] with
      | error e => simp only [hsp] at hok; exact absurd hok (by simp)
      | ok out1 =>
        obtain ⟨f1, lv1, nv1⟩ := out1
        simp only [hsp] at hok
        cases hrl : insert_reload f1 lv1 r f.numSlots nv1 with
        | error e => simp only [hrl] at hok; exact absurd hok (by simp)
        | ok out2 =>
          obtain ⟨f2, lv2, nv2⟩ := out2
          simp only [hrl] at hok
          simp only [Except.ok.injEq, Prod.mk.injEq] at hok
          rcases hok with ⟨hfo, hlvo, hnvo⟩
          subst hfo
          rcases insert_spill_no_def_refs hsp
            (show r ≠ f.nextVReg from by omega) with ⟨A1, A2, A3⟩
          have hrn1 : r ≠ f1.nextVReg := by
            have : f.nextVReg ≤ f1.nextVReg := A3
            omega
          rcases insert_reload_no_refs hrn1 A1 hrl with ⟨B1, B2⟩
          have hvge : ∀ v ∈ nv2, f.nextVReg ≤ v := by
            intro v hv
            rcases B2 with hb | hb <;> rw [hb] at hv
            · rcases A2 with ha | ha <;> rw [ha] at hv
              · simp at hv
              · simp at hv
                omega
            · rcases List.mem_append.mp hv with hv | hv
              · rcases A2 with ha | ha <;> rw [ha] at hv
                · simp at hv
                · simp at hv
                  omega
              · simp at hv
                subst hv
                exact A3
          refine ⟨B1, ?_, ?_⟩
          · intro v hv
            rw [← hlvo]
            have hvne : v ≠ r := by
              have := hvge v (hnvo ▸ hv)
              omega
            simp [removeVReg, foldl_computeLiveRanges, hvne]
            right
            exact hnvo ▸ hv
          · rw [← hlvo]
            simp [removeVReg]

/-- Witness for C4: the clears-vreg theorem applied to the concrete spill of
vreg 0 in `exOneDef`, with every hypothesis discharged by computation. -/
theorem spiller_spill_clears_vreg_witness :
    0 < exOneDef.nextVReg ∧
    spill exOneDef exOneDefLv 0 = .ok (exOneDefSpillF, exOneDefSpillLv, [1, 2]) ∧
    ((∀ p ∈ exOneDefSpillF.insts, 0 ∉ p.2.defs ∧ 0 ∉ p.2.uses) ∧
      (∀ v ∈ [1, 2], v ∈ exOneDefSpillLv.ranges) ∧
      0 ∉ exOneDefSpillLv.ranges) := by
  exact ⟨by decide, rfl, spiller_spill_clears_vreg exOneDef exOneDefLv 0
    exOneDefSpillF exOneDefSpillLv [1, 2] (by decide) rfl⟩

theorem setInst_keys (f : MFunction) (i : Nat) (d : MInst) :
    (setInst f i d).insts.map Prod.fst = f.insts.map Prod.fst := by
  unfold setInst
  simp only [List.map_map]
  apply List.map_congr_left
  intro q _
  by_cases hq : q.1 = i <;> simp [hq]

theorem mem_listInsertAfter_inv {a x y : Nat} {l : List Nat}
    (h : a ∈ listInsertAfter x y l) : a = y ∨ a ∈ l := by
  by_cases hx : x ∈ l
  · rcases listInsertAfter_of_mem y hx with ⟨l1, l2, hdec, _, hins⟩
    rw [hins] at h
    rw [hdec]
    simp at h ⊢
    tauto
  · rw [listInsertAfter_of_not_mem y hx] at h
    exact Or.inr h

theorem mem_listInsertBefore_inv {a x y : Nat} {l : List Nat}
    (h : a ∈ listInsertBefore x y l) : a = y ∨ a ∈ l := by
  by_cases hx : x ∈ l
  · rcases listInsertBefore_of_mem y hx with ⟨l1, l2, hdec, _, hins⟩
    rw [hins] at h
    rw [hdec]
    simp at h ⊢
    tauto
  · rw [listInsertBefore_of_not_mem y hx] at h
    exact Or.inr h

/-- The head-of-block invariant for `u` survives inserting a fresh id after
any anchor in any block. -/
theorem headInv_mapInsertAfter {layout : List (Nat × List Nat)}
    {u anchor y blk : Nat} (hy : y ≠ u)
    (hhead : ∀ p ∈ layout, u ∈ p.2 → p.2.head? = some u ∧ List.count u p.2 = 1) :
    ∀ p ∈ layout.map (fun q => if q.1 = blk
        then (q.1, listInsertAfter anchor y q.2) else q),
      u ∈ p.2 → p.2.head? = some u ∧ List.count u p.2 = 1 := by
  intro p hp hu
  rcases List.mem_map.mp hp with ⟨q, hq, he⟩
  by_cases hqb : q.1 = blk
  · simp only [hqb, if_true, ite_true] at he
    subst he
    simp only at hu
    rcases mem_listInsertAfter_inv hu with h1 | h1
    · exact absurd h1.symm hy
    · rcases hhead q hq h1 with ⟨hh, hc⟩
      exact ⟨by rw [head_listInsertAfter, hh], by rw [count_listInsertAfter _ _ hy, hc]⟩
  · simp only [hqb, if_false, ite_false] at he
    subst he
    exact hhead q hq hu

/-- The head-of-block invariant for `u` survives inserting a fresh id before
any anchor other than `u`. -/
theorem headInv_mapInsertBefore {layout : List (Nat × List Nat)}
    {u anchor y blk : Nat} (hx : anchor ≠ u) (hy : y ≠ u)
    (hhead : ∀ p ∈ layout, u ∈ p.2 → p.2.head? = some u ∧ List.count u p.2 = 1) :
    ∀ p ∈ layout.map (fun q => if q.1 = blk
        then (q.1, listInsertBefore anchor y q.2) else q),
      u ∈ p.2 → p.2.head? = some u ∧ List.count u p.2 = 1 := by
  intro p hp hu
  rcases List.mem_map.mp hp with ⟨q, hq, he⟩
  by_cases hqb : q.1 = blk
  · simp only [hqb, if_true, ite_true] at he
    subst he
    simp only at hu
    rcases mem_listInsertBefore_inv hu with h1 | h1
    · exact absurd h1.symm hy
    · rcases hhead q hq h1 with ⟨hh, hc⟩
      exact ⟨head_listInsertBefore hh hx,
        by rw [count_listInsertBefore _ _ hy, hc]⟩
  · simp only [hqb, if_false, ite_false] at he
    subst he
    exact hhead q hq hu

/-- When `u` heads (with a single occurrence) every layout block containing
it, `prev_inst_of` finds nothing before it. -/
theorem prev_inst_of_eq_none_of_headInv {f : MFunction} {u : Nat}
    (hhead : ∀ p ∈ f.layout, u ∈ p.2 →
      p.2.head? = some u ∧ List.count u p.2 = 1) :
    prev_inst_of f u = none := by
  unfold prev_inst_of containingBlock
  cases hfind : f.layout.find? (fun p => decide (u ∈ p.2)) with
  | none => rfl
  | some p =>
    have hmem : p ∈ f.layout := List.mem_of_find?_eq_some hfind
    have hpred : u ∈ p.2 := by
      have := List.find?_some hfind
      simpa using this
    rcases hhead p hmem hpred with ⟨hh, hc⟩
    simp [listPrevBefore_eq_none hh hc]

theorem reloadStep_ok_prev {f : MFunction} {lv : LivenessState}
    {r n slot u : Nat} {f3 : MFunction} {lv3 : LivenessState}
    (h : reloadStep f lv r n slot u = .ok (f3, lv3)) :
    ∃ prv, prev_inst_of f u = some prv := by
  cases hu : instGet f u with
  | none => simp [reloadStep, hu] at h
  | some inst =>
    simp only [reloadStep, hu] at h
    split at h
    · exact absurd h (by simp)
    · rename_i out fo lvo heq
      exact (insert_inst_before_ok heq).2

/-- The step's structural layout form: the load id `f.nextInstId` is
inserted before `u` in `u`'s parent block. -/
theorem reloadStep_layout {f : MFunction} {lv : LivenessState}
    {r n slot u : Nat} {f3 : MFunction} {lv3 : LivenessState}
    (h : reloadStep f lv r n slot u = .ok (f3, lv3)) :
    ∃ inst, instGet f u = some inst ∧
      f3.layout = f.layout.map (fun q => if q.1 = inst.parent
        then (q.1, listInsertBefore u f.nextInstId q.2) else q) ∧
      f3.nextInstId = f.nextInstId + 1 := by
  cases hu : instGet f u with
  | none => simp [reloadStep, hu] at h
  | some inst =>
    simp only [reloadStep, hu] at h
    refine ⟨inst, rfl, ?_⟩
    split at h
    · exact absurd h (by simp)
    · rename_i out fo lvo heq
      rcases insert_inst_before_ok heq with ⟨hfo, _⟩
      simp only [Except.ok.injEq, Prod.mk.injEq] at h
      rcases h with ⟨hf3, _⟩
      subst hf3
      subst hfo
      exact ⟨rfl, rfl⟩

/-- If some pending reading use `u` still heads every block containing it,
the reload loop cannot finish: `insert_inst_before` has no predecessor to
hang the load on. -/
theorem reloadLoop_head_stuck (r n slot u : Nat) :
    ∀ (us : List Nat) (f : MFunction) (lv : LivenessState),
      us.Nodup → u ∈ us →
      (∀ p ∈ f.insts, p.1 < f.nextInstId) →
      u < f.nextInstId →
      (∀ p ∈ f.layout, u ∈ p.2 → p.2.head? = some u ∧ List.count u p.2 = 1) →
      ∀ out, reloadLoop f lv r n slot us ≠ .ok out
  | [], f, lv => by
    intro _ hmem
    simp at hmem
  | v :: rest, f, lv => by
    intro hnd hmem hkey hult hhead out hok
    cases hstep : reloadStep f lv r n slot v with
    | error e => simp [reloadLoop, hstep] at hok
    | ok out3 =>
      obtain ⟨f3, lv3⟩ := out3
      simp only [reloadLoop, hstep] at hok
      rcases List.mem_cons.mp hmem with heq | hrest
      · subst heq
        rcases reloadStep_ok_prev hstep with ⟨prv, hprv⟩
        rw [prev_inst_of_eq_none_of_headInv hhead] at hprv
        exact absurd hprv (by simp)
      · have hvu : v ≠ u := fun hc => (List.nodup_cons.mp hnd).1 (hc ▸ hrest)
        rcases reloadStep_layout hstep with ⟨inst, _, hlay3, hnid3⟩
        rcases reloadStep_ok hkey hstep with ⟨_, _, _, _, _, _, _, _, hkey3⟩
        have hhead3 : ∀ p ∈ f3.layout, u ∈ p.2 →
            p.2.head? = some u ∧ List.count u p.2 = 1 := by
          rw [hlay3]
          exact headInv_mapInsertBefore hvu (by omega) hhead
        exact reloadLoop_head_stuck r n slot u rest f3 lv3
          (List.nodup_cons.mp hnd).2 hrest hkey3 (by omega) hhead3 out hok

theorem alookup_append_single_ne {α : Type} {k m : Nat} {v : α}
    {l : List (Nat × α)} (h : k ≠ m) :
    alookup k (l ++ [(m, v)]) = alookup k l := by
  rw [alookup_append]
  cases hc : alookup k l with
  | some w => rfl
  | none =>
    simp [alookup]
    exact fun hc => h hc.symm

theorem setInst_nextInstId (f : MFunction) (i : Nat) (d : MInst) :
    (setInst f i d).nextInstId = f.nextInstId := rfl

theorem insertStoreAfter_layout {f : MFunction} {lv : LivenessState}
    {n slot anchor blk : Nat} {nvs : List Nat} {fOut : MFunction}
    {lvOut : LivenessState} {nv : List Nat}
    (h : insertStoreAfter f lv n slot anchor blk nvs = .ok (fOut, lvOut, nv)) :
    fOut.layout = f.layout.map (fun q => if q.1 = blk
      then (q.1, listInsertAfter anchor f.nextInstId q.2) else q) ∧
    fOut.nextInstId = f.nextInstId + 1 := by
  unfold insertStoreAfter at h
  split at h
  · exact absurd h (by simp)
  · rename_i out f4 lv4 heq
    rcases insert_inst_after_ok heq with ⟨hf4, _⟩
    simp only [Except.ok.injEq, Prod.mk.injEq] at h
    rcases h with ⟨hfo, _⟩
    subst hfo
    subst hf4
    exact ⟨rfl, rfl⟩

theorem insertStoreAfter_ok_next {f : MFunction} {lv : LivenessState}
    {n slot anchor blk : Nat} {nvs : List Nat} {fOut : MFunction}
    {lvOut : LivenessState} {nv : List Nat}
    (h : insertStoreAfter f lv n slot anchor blk nvs = .ok (fOut, lvOut, nv)) :
    ∃ nxt, next_inst_of f anchor = some nxt := by
  unfold insertStoreAfter at h
  split at h
  · exact absurd h (by simp)
  · rename_i out f4 lv4 heq
    exact (insert_inst_after_ok heq).2

theorem insert_spill_ok_facts {f : MFunction} {lv : LivenessState}
    {r slot : Nat} {nv0 : List Nat} {f1 : MFunction} {lv1 : LivenessState}
    {nv1 : List Nat}
    (hkey : ∀ p ∈ f.insts, p.1 < f.nextInstId)
    (h : insert_spill f lv r slot nv0 = .ok (f1, lv1, nv1)) :
    (∀ p ∈ f1.insts, p.1 < f1.nextInstId) ∧
    f.nextInstId ≤ f1.nextInstId ∧
    (∀ k, k < f.nextInstId → k ∉ writeUsers f r → instGet f1 k = instGet f k) ∧
    ((f.insts.map Prod.fst).Nodup → (f1.insts.map Prod.fst).Nodup) ∧
    (∀ u, u < f.nextInstId →
      (∀ p ∈ f.layout, u ∈ p.2 → p.2.head? = some u ∧ List.count u p.2 = 1) →
      ∀ p ∈ f1.layout, u ∈ p.2 → p.2.head? = some u ∧ List.count u p.2 = 1) := by
  unfold insert_spill at h
  split at h
  · simp only [Except.ok.injEq, Prod.mk.injEq] at h
    rcases h with ⟨h1, _⟩
    subst h1
    exact ⟨hkey, Nat.le_refl _, fun k _ _ => rfl, id, fun u _ hh => hh⟩
  · cases hty : alookup r f.vregTys with
    | none => simp [createFrom, hty] at h
    | some ty =>
      simp only [createFrom, hty] at h
      have hnodup : (f.insts.map Prod.fst).Nodup →
          ∀ (g : MFunction), g.insts.map Prod.fst = f.insts.map Prod.fst →
          ∀ st : MInst, ((g.insts ++ [(f.nextInstId, st)]).map Prod.fst).Nodup := by
        intro hnd g hg st
        rw [List.map_append, hg]
        simp only [List.map_cons, List.map_nil]
        rw [List.nodup_append]
        refine ⟨hnd, List.nodup_singleton _, ?_⟩
        intro a ha
        simp only [List.mem_singleton]
        intro hc
        subst hc
        rcases List.mem_map.mp ha with ⟨q, hq, he⟩
        have := hkey q hq
        omega
      split at h
      · -- one def
        rename_i d hw
        cases hd : instGet (bumpVReg f ty) d with
        | none => simp [spillStoreOne, hd] at h
        | some dInst =>
          simp only [spillStoreOne, hd] at h
          rcases insertStoreAfter_insts h with ⟨hinsts, _, _⟩
          rcases insertStoreAfter_layout h with ⟨hlay, hnid⟩
          simp only [setInst_nextInstId, bumpVReg_nextInstId]
            at hinsts hlay hnid
          have hdlt : d < f.nextInstId := hkey _ (alookup_mem hd)
          refine ⟨?_, by omega, ?_, ?_, ?_⟩
          · intro p hp
            rw [hinsts] at hp
            rcases List.mem_append.mp hp with hp | hp
            · rcases mem_setInst hp with heq | ⟨hmem, _⟩
              · subst heq
                omega
              · have := hkey p hmem
                omega
            · simp at hp
              subst hp
              show f.nextInstId < f1.nextInstId
              omega
          · intro k hk hknot
            have hkd : k ≠ d := fun hc => hknot (hc ▸ (hw ▸ List.mem_singleton.mpr rfl))
            show alookup k f1.insts = alookup k f.insts
            rw [hinsts]
            rw [alookup_append_single_ne (show k ≠ f.nextInstId from by omega)]
            exact instGet_setInst_ne (bumpVReg f ty) _ hkd
          · intro hnd
            rw [hinsts]
            exact hnodup hnd _ (setInst_keys (bumpVReg f ty) _ _) _
          · intro u hu hh
            rw [hlay]
            exact headInv_mapInsertAfter (by omega) hh
      · -- two defs
        rename_i d1 d2 hw
        cases hd1 : instGet (bumpVReg f ty) d1 with
        | none => simp [spillStoreTwo, hd1] at h
        | some i1 =>
          cases hd2 : instGet (setInst (bumpVReg f ty) d1
              (replaceVReg i1 r f.nextVReg)) d2 with
          | none => simp [spillStoreTwo, hd1, hd2] at h
          | some i2 =>
            simp only [spillStoreTwo, hd1, hd2] at h
            split at h
            · rename_i defId defBlock
              rcases insertStoreAfter_insts h with ⟨hinsts, _, _⟩
              rcases insertStoreAfter_layout h with ⟨hlay, hnid⟩
              simp only [setInst_nextInstId, bumpVReg_nextInstId]
                at hinsts hlay hnid
              have hd1lt : d1 < f.nextInstId := hkey _ (alookup_mem hd1)
              refine ⟨?_, by omega, ?_, ?_, ?_⟩
              · intro p hp
                rw [hinsts] at hp
                rcases List.mem_append.mp hp with hp | hp
                · rcases mem_setInst hp with heq | ⟨hmem2, _⟩
                  · subst heq
                    have := alookup_mem hd2
                    rcases mem_setInst this with heq2 | ⟨hmem1, _⟩
                    · have : d2 = d1 := congrArg Prod.fst heq2
                      subst this
                      omega
                    · have := hkey _ hmem1
                      omega
                  · rcases mem_setInst hmem2 with heq | ⟨hmem1, _⟩
                    · subst heq
                      omega
                    · have := hkey p hmem1
                      omega
                · simp at hp
                  subst hp
                  show f.nextInstId < f1.nextInstId
                  omega
              · intro k hk hknot
                have hkd1 : k ≠ d1 := fun hc =>
                  hknot (hc ▸ (hw ▸ (by simp : d1 ∈ [d1, d2])))
                have hkd2 : k ≠ d2 := fun hc =>
                  hknot (hc ▸ (hw ▸ (by simp : d2 ∈ [d1, d2])))
                show alookup k f1.insts = alookup k f.insts
                rw [hinsts]
                rw [alookup_append_single_ne (show k ≠ f.nextInstId from by omega)]
                rw [show alookup k (setInst (setInst (bumpVReg f ty) d1
                    (replaceVReg i1 r f.nextVReg)) d2 (replaceVReg i2 r f.nextVReg)).insts
                  = alookup k (setInst (bumpVReg f ty) d1
                    (replaceVReg i1 r f.nextVReg)).insts from
                  instGet_setInst_ne _ _ hkd2]
                exact instGet_setInst_ne (bumpVReg f ty) _ hkd1
              · intro hnd
                rw [hinsts]
                refine hnodup hnd _ ?_ _
                exact (setInst_keys _ _ _).trans ((setInst_keys _ _ _).trans rfl)
              · intro u hu hh
                rw [hlay]
                exact headInv_mapInsertAfter (by omega) hh
            · exact absurd h (by simp)
      · exact absurd h (by simp)

theorem spill_ok_inv {f : MFunction} {lv : LivenessState} {r : Nat}
    {fOut : MFunction} {lvOut : LivenessState} {nv : List Nat}
    (h : spill f lv r = .ok (fOut, lvOut, nv)) :
    ∃ f1 lv1 nv1 f2 lv2,
      insert_spill { f with numSlots := f.numSlots + 1 } lv r f.numSlots []
        = .ok (f1, lv1, nv1) ∧
      insert_reload f1 lv1 r f.numSlots nv1 = .ok (f2, lv2, nv) := by
  unfold spill at h
  split at h
  · exact absurd h (by simp)
  · split at h
    · exact absurd h (by simp)
    · cases hsp : insert_spill { f with numSlots := f.numSlots + 1 } lv r
          f.numSlots [] with
      | error e => simp only [hsp] at h; exact absurd h (by simp)
      | ok out1 =>
        obtain ⟨f1, lv1, nv1⟩ := out1
        simp only [hsp] at h
        cases hrl : insert_reload f1 lv1 r f.numSlots nv1 with
        | error e => simp only [hrl] at h; exact absurd h (by simp)
        | ok out2 =>
          obtain ⟨f2, lv2, nv2⟩ := out2
          simp only [hrl] at h
          simp only [Except.ok.injEq, Prod.mk.injEq] at h
          rcases h with ⟨_, _, hnv⟩
          refine ⟨f1, lv1, nv1, f2, lv2, rfl, ?_⟩
          rw [← hnv]
          exact hrl

theorem insert_spill_one_def_next {f : MFunction} {lv : LivenessState}
    {r slot : Nat} {nv0 : List Nat} {f1 : MFunction} {lv1 : LivenessState}
    {nv1 : List Nat} {d : Nat}
    (hw : writeUsers f r = [d])
    (h : insert_spill f lv r slot nv0 = .ok (f1, lv1, nv1)) :
    ∃ nxt, next_inst_of f d = some nxt := by
  unfold insert_spill at h
  rw [hw] at h
  simp only [List.cons_ne_nil, if_false, ite_false] at h
  cases hty : alookup r f.vregTys with
  | none => simp [createFrom, hty] at h
  | some ty =>
    simp only [createFrom, hty] at h
    cases hd : instGet (bumpVReg f ty) d with
    | none => simp [spillStoreOne, hd] at h
    | some dInst =>
      simp only [spillStoreOne, hd] at h
      obtain ⟨nxt, hnxt⟩ := insertStoreAfter_ok_next h
      exact ⟨nxt, hnxt⟩

theorem insert_spill_two_def_facts {f : MFunction} {lv : LivenessState}
    {r slot : Nat} {nv0 : List Nat} {f1 : MFunction} {lv1 : LivenessState}
    {nv1 : List Nat} {d1 d2 : Nat} {i1 i2 : MInst}
    (hw : writeUsers f r = [d1, d2]) (hne : d1 ≠ d2)
    (hd1 : instGet f d1 = some i1) (hd2 : instGet f d2 = some i2)
    (h : insert_spill f lv r slot nv0 = .ok (f1, lv1, nv1)) :
    ¬(i1.isCopy = true ∧ i2.isCopy = true) ∧
    ∃ nxt, next_inst_of f (if i2.isCopy then d1 else d2) = some nxt := by
  unfold insert_spill at h
  rw [hw] at h
  simp only [List.cons_ne_nil, if_false, ite_false] at h
  cases hty : alookup r f.vregTys with
  | none => simp [createFrom, hty] at h
  | some ty =>
    simp only [createFrom, hty] at h
    have hd1b : instGet (bumpVReg f ty) d1 = some i1 := hd1
    have hd2b : instGet (setInst (bumpVReg f ty) d1
        (replaceVReg i1 r f.nextVReg)) d2 = some i2 := by
      rw [instGet_setInst_ne _ _ (Ne.symm hne)]
      exact hd2
    simp only [spillStoreTwo, hd1b, hd2b] at h
    cases hb2 : i2.isCopy with
    | false =>
      rw [hb2] at h
      simp at h
      refine ⟨by simp, ?_⟩
      obtain ⟨nxt, hnxt⟩ := insertStoreAfter_ok_next h
      exact ⟨nxt, hnxt⟩
    | true =>
      rw [hb2] at h
      cases hb1 : i1.isCopy with
      | false =>
        rw [hb1] at h
        simp at h
        refine ⟨by simp, ?_⟩
        obtain ⟨nxt, hnxt⟩ := insertStoreAfter_ok_next h
        exact ⟨nxt, hnxt⟩
      | true =>
        rw [hb1] at h
        simp at h

/-- C10 (amended): the spiller's insertion helpers make `spill` partial —
with one def, spilling panics when the def is the last instruction of its
block's layout; with two defs, it panics when the store anchor (the last
non-copy def) is last in its block, or when both defs are copies; and it
panics when a purely-reading user is the first instruction of its block.
(The counterexample shows a copy def that is last in its block does NOT
cause a panic, so the anchor def, not an arbitrary defining user, is what
needs a layout successor.) -/
theorem spiller_spill_requires_layout_neighbors
    (f : MFunction) (lv : LivenessState) (r : Nat)
    (hnd : (f.insts.map Prod.fst).Nodup)
    (hkey : ∀ p ∈ f.insts, p.1 < f.nextInstId) :
    (∀ d, writeUsers f r = [d] → next_inst_of f d = none →
      ∃ e, spill f lv r = .error e) ∧
    (∀ d1 d2 i1 i2, writeUsers f r = [d1, d2] →
      instGet f d1 = some i1 → instGet f d2 = some i2 →
      ((i2.isCopy = false ∧ next_inst_of f d2 = none) ∨
       (i2.isCopy = true ∧ i1.isCopy = false ∧ next_inst_of f d1 = none) ∨
       (i1.isCopy = true ∧ i2.isCopy = true)) →
      ∃ e, spill f lv r = .error e) ∧
    (∀ u du, instGet f u = some du → r ∈ du.uses → r ∉ du.defs →
      (∀ p ∈ f.layout, u ∈ p.2 → p.2.head? = some u ∧ List.count u p.2 = 1) →
      ∃ e, spill f lv r = .error e) := by
  refine ⟨?_, ?_, ?_⟩
  · intro d hw hnone
    cases hres : spill f lv r with
    | error e => exact ⟨e, rfl⟩
    | ok out =>
      exfalso
      obtain ⟨fo, lvo, nvo⟩ := out
      rcases spill_ok_inv hres with ⟨f1, lv1, nv1, f2, lv2, hsp, _⟩
      rcases insert_spill_one_def_next
        (show writeUsers { f with numSlots := f.numSlots + 1 } r = [d] from hw)
        hsp with ⟨nxt, hnxt⟩
      rw [show next_inst_of { f with numSlots := f.numSlots + 1 } d
        = next_inst_of f d from rfl] at hnxt
      rw [hnone] at hnxt
      exact absurd hnxt (by simp)
  · intro d1 d2 i1 i2 hw hd1 hd2 hcases
    cases hres : spill f lv r with
    | error e => exact ⟨e, rfl⟩
    | ok out =>
      exfalso
      obtain ⟨fo, lvo, nvo⟩ := out
      rcases spill_ok_inv hres with ⟨f1, lv1, nv1, f2, lv2, hsp, _⟩
      have hwnd : (writeUsers f r).Nodup := writeUsers_nodup hnd
      rw [hw] at hwnd
      have hne : d1 ≠ d2 := by simp at hwnd; exact hwnd
      rcases insert_spill_two_def_facts
        (show writeUsers { f with numSlots := f.numSlots + 1 } r = [d1, d2] from hw)
        hne
        (show instGet { f with numSlots := f.numSlots + 1 } d1 = some i1 from hd1)
        (show instGet { f with numSlots := f.numSlots + 1 } d2 = some i2 from hd2)
        hsp with ⟨hnb, nxt, hnxt⟩
      rcases hcases with ⟨hc2, hno⟩ | ⟨hc2, hc1, hno⟩ | hboth
      · rw [hc2] at hnxt
        simp only [Bool.false_eq_true, if_false, ite_false] at hnxt
        rw [show next_inst_of { f with numSlots := f.numSlots + 1 } d2
          = next_inst_of f d2 from rfl, hno] at hnxt
        exact absurd hnxt (by simp)
      · rw [hc2] at hnxt
        simp only [if_true, ite_true] at hnxt
        rw [show next_inst_of { f with numSlots := f.numSlots + 1 } d1
          = next_inst_of f d1 from rfl, hno] at hnxt
        exact absurd hnxt (by simp)
      · exact hnb hboth
  · intro u du hu hru hwr hhead
    cases hres : spill f lv r with
    | error e => exact ⟨e, rfl⟩
    | ok out =>
      exfalso
      obtain ⟨fo, lvo, nvo⟩ := out
      rcases spill_ok_inv hres with ⟨f1, lv1, nv1, f2, lv2, hsp, hrl⟩
      have hult : u < f.nextInstId := hkey _ (alookup_mem hu)
      have hunw : u ∉ writeUsers f r := by
        intro hc
        rcases mem_writeUsers.mp hc with ⟨inst, hmem, hdef⟩
        have : instGet f u = some inst := alookup_of_mem_nodup hnd hmem
        rw [hu] at this
        injection this with this
        exact hwr (this ▸ hdef)
      have hkey0 : ∀ p ∈ ({ f with numSlots := f.numSlots + 1 } : MFunction).insts,
          p.1 < ({ f with numSlots := f.numSlots + 1 } : MFunction).nextInstId := hkey
      rcases insert_spill_ok_facts hkey0 hsp with ⟨hkey1, hge1, hpres1, hnd1, hhd1⟩
      have hge1n : f.nextInstId ≤ f1.nextInstId := hge1
      have hu1 : instGet f1 u = some du := by
        rw [hpres1 u hult hunw]
        exact hu
      have hhead1 : ∀ p ∈ f1.layout, u ∈ p.2 →
          p.2.head? = some u ∧ List.count u p.2 = 1 := hhd1 u hult hhead
      have humem : u ∈ readUsers f1 r :=
        mem_readUsers.mpr ⟨du, alookup_mem hu1, hru⟩
      have hne1 : readUsers f1 r ≠ [] := fun hc => by rw [hc] at humem; simp at humem
      rw [insert_reload, if_neg hne1] at hrl
      cases hty1 : alookup r f1.vregTys with
      | none => simp [createFrom, hty1] at hrl
      | some ty1 =>
        simp only [createFrom, hty1] at hrl
        cases hloop : reloadLoop (bumpVReg f1 ty1) lv1 r f1.nextVReg f.numSlots
            (readUsers f1 r) with
        | error e => rw [hloop] at hrl; exact absurd hrl (by simp)
        | ok out2 =>
          exact reloadLoop_head_stuck r f1.nextVReg f.numSlots u
            (readUsers f1 r) (bumpVReg f1 ty1) lv1
            (readUsers_nodup (hnd1 hnd)) humem hkey1
            (show u < f1.nextInstId from by omega) hhead1
            out2 hloop

/-- Witness for C10's amended theorem: spilling vreg 0 of `exDefLast`, whose
single def is the last instruction of its block, panics. -/
theorem spiller_spill_requires_layout_neighbors_witness :
    writeUsers exDefLast 0 = [10] ∧ next_inst_of exDefLast 10 = none ∧
    ∃ e, spill exDefLast exDefLastLv 0 = .error e := by
  refine ⟨by decide, by decide, ?_⟩
  exact (spiller_spill_requires_layout_neighbors exDefLast exDefLastLv 0
    (by decide) (by decide)).1 10 (by decide) (by decide)

/-- Counterexample for C10 as stated: in `exTwoAddr` the copy def 12 of
vreg 0 IS a defining user and IS the last instruction of its block's layout,
yet spilling vreg 0 succeeds (the store is anchored on the non-copy def 10),
so spilling does not panic "whenever a defining user is the last instruction
of its block". -/
theorem spiller_spill_partiality_cex :
    (12 ∈ writeUsers exTwoAddr 0) ∧
    next_inst_of exTwoAddr 12 = none ∧
    isOkResult (spill exTwoAddr exTwoAddrLv 0) = true :=
  ⟨by decide, by decide, rfl⟩

end Spl

namespace Low

/-- C3 counterexample: in `exPhiFn` the non-entry block 1 is headed by the
phi 21, and `compile_function` lowers it (21 is in the lowering trace) and
emits its machine code at the head of block 1's machine block, so the
alloca/phi header pass is not confined to the entry block. -/
theorem lower_header_pass_entry_only_cex :
    isHeaderInst exPhiFn 21 = true ∧
    (compile_function [99] (fun i => [i]) exPhiFn).2 = [20, 21, 22] ∧
    (compile_function [99] (fun i => [i]) exPhiFn).1 =
      [(0, [99, 20]), (1, [21, 22])] :=
  ⟨rfl, rfl, rfl⟩

/-- C3 (amended): the alloca/phi header pass runs for EVERY block, not only
the entry block. The machine code of the block at layout index `i` is the
prologue (argument copies, present exactly when `i = 0`) followed by the
lowered leading alloca/phi run and then the lowered remaining body restored
to forward order, and every instruction of the leading alloca/phi run is
lowered (it appears in the trace of `lower`-hook invocations). -/
theorem lower_header_pass_every_block {ε : Type} (prologueSeq : List ε)
    (lowerFn : Nat → List ε) (f : IRFunction) (i : Nat) (b : Nat × List Nat)
    (hb : f.blocks[i]? = some b) :
    (compile_function prologueSeq lowerFn f).1[i]? =
      some (b.1, (if i = 0 then prologueSeq else []) ++
        (b.2.takeWhile (isHeaderInst f)).flatMap lowerFn ++
        ((b.2.reverse.takeWhile fun j => !isHeaderInst f j).filter
          (fun j => !shouldSkip f j)).reverse.flatMap lowerFn) ∧
    ∀ j ∈ b.2.takeWhile (isHeaderInst f),
      j ∈ (compile_function prologueSeq lowerFn f).2 := by
  constructor
  · have h1 : (compile_function prologueSeq lowerFn f).1 =
        f.blocks.enum.map fun p =>
          (p.2.1, machineBlock (if p.1 = 0 then prologueSeq else [])
            lowerFn f p.2.2) := rfl
    rw [h1, List.getElem?_map, List.getElem?_enum, hb]
    rfl
  · intro j hj
    have h2 : (compile_function prologueSeq lowerFn f).2 =
        f.blocks.flatMap fun q => headerRun f q.2 ++ bodyRevRun f q.2 := rfl
    rw [h2]
    refine List.mem_flatMap.mpr ⟨b, List.getElem?_mem hb, ?_⟩
    exact List.mem_append_left _ hj

/-- Closed witness for the C3 theorem at `exPhiFn`, block index 1 (a
non-entry block): its machine block is the lowered phi followed by the
lowered terminator, with no prologue, and the phi 21 is in the trace. -/
theorem lower_header_pass_every_block_witness :
    exPhiFn.blocks[1]? = some (1, [21, 22]) ∧
    (compile_function [99] (fun i => [i]) exPhiFn).1[1]? =
      some (1, [21, 22]) ∧
    21 ∈ (compile_function [99] (fun i => [i]) exPhiFn).2 := by
  have h := lower_header_pass_every_block [99] (fun i => [i]) exPhiFn 1
    (1, [21, 22]) rfl
  exact ⟨rfl, h.1, h.2 21 (by decide)⟩

/-- C5: an instruction whose opcode is side-effect free (and not alloca/phi)
and all of whose users live in its own block is skipped by the reverse
lowering loop: the `lower` hook is never invoked for it (it is absent from
the trace), and with the instrumented lowering that emits each lowered
instruction id as its own machine code, no machine block produced by
`compile_function` contains it — it is left to be folded into its
consumers. -/
theorem lower_merges_side_effect_free_inst {ε : Type} (prologueSeq : List ε)
    (lowerFn : Nat → List ε) (prologueIds : List Nat) (f : IRFunction)
    (i : Nat) (d : IRInst)
    (hget : instGet f i = some d)
    (halloca : d.opcode.isAlloca = false)
    (hphi : d.opcode.isPhi = false)
    (hse : d.opcode.sideEffects = false)
    (hus : usersSameBlock f d = true)
    (hpr : i ∉ prologueIds) :
    i ∉ (compile_function prologueSeq lowerFn f).2 ∧
    ∀ q ∈ (compile_function prologueIds (fun j => [j]) f).1, i ∉ q.2 := by
  have hhdr : isHeaderInst f i = false := by
    simp [isHeaderInst, hget, halloca, hphi]
  have hskip : shouldSkip f i = true := by
    simp [shouldSkip, hget, hse, hus]
  have hnothdr : ∀ ids : List Nat, i ∉ ids.takeWhile (isHeaderInst f) := by
    intro ids hmem
    have := List.mem_takeWhile_imp hmem
    rw [hhdr] at this
    exact Bool.false_ne_true this
  have hnotbody : ∀ ids : List Nat, i ∉ bodyRevRun f ids := by
    intro ids hmem
    have := (List.mem_filter.mp hmem).2
    rw [hskip] at this
    simp at this
  constructor
  · intro hmem
    have hmem2 : i ∈ f.blocks.flatMap
        fun q => headerRun f q.2 ++ bodyRevRun f q.2 := hmem
    obtain ⟨q, _, hin⟩ := List.mem_flatMap.mp hmem2
    rcases List.mem_append.mp hin with h1 | h2
    · exact hnothdr q.2 h1
    · exact hnotbody q.2 h2
  · intro q hq hin
    have hq2 : q ∈ f.blocks.enum.map fun p =>
        (p.2.1, machineBlock (if p.1 = 0 then prologueIds else [])
          (fun j => [j]) f p.2.2) := hq
    obtain ⟨p, _, hpq⟩ := List.mem_map.mp hq2
    rw [← hpq] at hin
    simp only [machineBlock, List.flatMap_singleton', List.mem_append,
      List.mem_reverse] at hin
    rcases hin with (hin | hin) | hin
    · split at hin
      · exact hpr hin
      · simp at hin
    · exact hnothdr p.2.2 hin
    · exact hnotbody p.2.2 hin

/-- Closed witness for the C5 theorem at `exAddRet`: the add-like
instruction 30, used only by the same-block terminator 31, is never lowered
and appears in no machine block of the instrumented lowering. -/
theorem lower_merges_side_effect_free_inst_witness :
    instGet exAddRet 30 = some ⟨⟨false, false, false⟩, 0, [31]⟩ ∧
    usersSameBlock exAddRet ⟨⟨false, false, false⟩, 0, [31]⟩ = true ∧
    30 ∉ [99] ∧
    30 ∉ (compile_function [99] (fun j => [j]) exAddRet).2 ∧
    ∀ q ∈ (compile_function [99] (fun j => [j]) exAddRet).1, 30 ∉ q.2 := by
  have h := lower_merges_side_effect_free_inst [99] (fun j => [j]) [99]
    exAddRet 30 ⟨⟨false, false, false⟩, 0, [31]⟩ rfl rfl rfl rfl
    (by decide) (by decide)
  exact ⟨rfl, by decide, by decide, h.1, h.2⟩

end Low

namespace Prt

theorem nameArgsFrom_eq (ps : List PParam) : ∀ (st : PrinterState) (i : Nat),
    nameArgsFrom st i ps =
      ⟨(argEntries st.curIndex i ps).1.reverse ++ st.indexes,
       (argEntries st.curIndex i ps).2⟩ := by
  induction ps with
  | nil => intro st i; rfl
  | cons p ps ih =>
    intro st i
    cases h : nameToStr p.name with
    | some s =>
      simp only [nameArgsFrom, argEntries, h]
      rw [ih]
      simp [insertIdx, List.append_assoc]
    | none =>
      simp only [nameArgsFrom, argEntries, h]
      rw [ih]
      simp [newNameFor, List.append_assoc]

theorem nameInsts_eq (l : List (Nat × PInst)) : ∀ (st : PrinterState),
    nameInsts st l =
      ⟨(instEntries st.curIndex l).1.reverse ++ st.indexes,
       (instEntries st.curIndex l).2⟩ := by
  induction l with
  | nil => intro st; rfl
  | cons q rest ih =>
    intro st
    cases hs : instSkipped q.2 with
    | true =>
      simp only [nameInsts, nameInst, instEntries, hs, if_true]
      rw [ih]
    | false =>
      cases hd : q.2.dest with
      | none =>
        simp only [nameInsts, nameInst, instEntries, hs, hd]
        rw [ih]
        simp [newNameFor, List.append_assoc]
      | some nm =>
        cases nm with
        | name s =>
          simp only [nameInsts, nameInst, instEntries, hs, hd]
          rw [ih]
          simp [insertIdx, List.append_assoc]
        | num m =>
          simp only [nameInsts, nameInst, instEntries, hs, hd]
          rw [ih]
          simp [newNameFor, List.append_assoc]

theorem nameBlockLabel_eq (st : PrinterState) (id : Nat) (b : PBlock) :
    nameBlockLabel st id b =
      ⟨(blockLabelEntry st.curIndex id b).1.reverse ++ st.indexes,
       (blockLabelEntry st.curIndex id b).2⟩ := by
  cases hb : b.name with
  | none => simp [nameBlockLabel, blockLabelEntry, hb, newNameFor]
  | some nm =>
    cases nm with
    | name s =>
      simp [nameBlockLabel, blockLabelEntry, hb, nameToStr, insertIdx]
    | num m =>
      simp [nameBlockLabel, blockLabelEntry, hb, nameToStr, newNameFor]

theorem nameBlocks_eq (bs : List (Nat × PBlock)) : ∀ (st : PrinterState),
    nameBlocks st bs =
      ⟨(blockEntries st.curIndex bs).1.reverse ++ st.indexes,
       (blockEntries st.curIndex bs).2⟩ := by
  induction bs with
  | nil => intro st; rfl
  | cons q rest ih =>
    intro st
    show nameBlocks (nameInsts (nameBlockLabel st q.1 q.2) q.2.insts) rest = _
    rw [nameBlockLabel_eq, nameInsts_eq, ih]
    simp only [blockEntries]
    simp [List.reverse_append, List.append_assoc]

theorem assignNames_indexes (f : PFunction) :
    (assignNames f).indexes = (funEntries f).reverse := by
  show (nameBlocks (nameArgsFrom ⟨[], 0⟩ 0 f.params) f.blocks).indexes = _
  rw [nameArgsFrom_eq, nameBlocks_eq]
  simp [funEntries, List.reverse_append]

theorem numberedFrom_append (l1 l2 : List Ids) : ∀ n : Nat,
    numberedFrom n (l1 ++ l2) =
      numberedFrom n l1 ++ numberedFrom (n + l1.length) l2 := by
  induction l1 with
  | nil => intro n; simp [numberedFrom]
  | cons k l1 ih =>
    intro n
    have h : n + 1 + l1.length = n + (l1.length + 1) := by omega
    show (k, PName.num n) :: numberedFrom (n + 1) (l1 ++ l2) = _
    rw [ih (n + 1), h]
    rfl

theorem numberedFrom_get (l : List Ids) : ∀ (n k : Nat) (h : k < l.length),
    (l.get ⟨k, h⟩, PName.num (n + k)) ∈ numberedFrom n l := by
  induction l with
  | nil => intro n k h; exact absurd h (by simp)
  | cons a l ih =>
    intro n k h
    cases k with
    | zero => simp [numberedFrom]
    | succ k =>
      have h2 : k < l.length := by simpa using h
      have := ih (n + 1) k h2
      have harith : n + 1 + k = n + (k + 1) := by omega
      rw [harith] at this
      exact List.mem_cons_of_mem _ this

theorem argEntries_filterMap (ps : List PParam) : ∀ (n i : Nat),
    (argEntries n i ps).1.filterMap numEntry =
        numberedFrom n (specUnnamedArgKeys i ps) ∧
      (argEntries n i ps).2 = n + (specUnnamedArgKeys i ps).length := by
  induction ps with
  | nil => intro n i; simp [argEntries, specUnnamedArgKeys, numberedFrom]
  | cons p ps ih =>
    intro n i
    cases hp : p.name with
    | name s =>
      have e1 : argEntries n i (p :: ps) =
          ((Ids.arg i, PName.name s) :: (argEntries n (i + 1) ps).1,
            (argEntries n (i + 1) ps).2) := by
        simp [argEntries, hp, nameToStr]
      have e2 : specUnnamedArgKeys i (p :: ps) =
          specUnnamedArgKeys (i + 1) ps := by
        simp [specUnnamedArgKeys, hp]
      rw [e1, e2]
      exact ⟨by simp [numEntry, (ih n (i + 1)).1], (ih n (i + 1)).2⟩
    | num m =>
      have e1 : argEntries n i (p :: ps) =
          ((Ids.arg i, PName.num n) :: (argEntries (n + 1) (i + 1) ps).1,
            (argEntries (n + 1) (i + 1) ps).2) := by
        simp [argEntries, hp, nameToStr]
      have e2 : specUnnamedArgKeys i (p :: ps) =
          Ids.arg i :: specUnnamedArgKeys (i + 1) ps := by
        simp [specUnnamedArgKeys, hp]
      rw [e1, e2]
      refine ⟨by simp [numEntry, numberedFrom, (ih (n + 1) (i + 1)).1], ?_⟩
      have := (ih (n + 1) (i + 1)).2
      simp only [this, List.length_cons]
      omega

theorem instEntries_filterMap (l : List (Nat × PInst)) : ∀ (n : Nat),
    (instEntries n l).1.filterMap numEntry =
        numberedFrom n (specUnnamedInstKeys l) ∧
      (instEntries n l).2 = n + (specUnnamedInstKeys l).length := by
  induction l with
  | nil => intro n; simp [instEntries, specUnnamedInstKeys, numberedFrom]
  | cons q rest ih =>
    intro n
    cases hs : instSkipped q.2 with
    | true =>
      have e1 : instEntries n (q :: rest) = instEntries n rest := by
        simp [instEntries, hs]
      have e2 : specUnnamedInstKeys (q :: rest) =
          specUnnamedInstKeys rest := by
        simp [specUnnamedInstKeys, hs]
      rw [e1, e2]
      exact ih n
    | false =>
      cases hd : q.2.dest with
      | none =>
        have e1 : instEntries n (q :: rest) =
            ((Ids.inst q.1, PName.num n) :: (instEntries (n + 1) rest).1,
              (instEntries (n + 1) rest).2) := by
          simp [instEntries, hs, hd]
        have e2 : specUnnamedInstKeys (q :: rest) =
            Ids.inst q.1 :: specUnnamedInstKeys rest := by
          simp [specUnnamedInstKeys, hs, hd]
        rw [e1, e2]
        refine ⟨by simp [numEntry, numberedFrom, (ih (n + 1)).1], ?_⟩
        have := (ih (n + 1)).2
        simp only [this, List.length_cons]
        omega
      | some nm =>
        cases nm with
        | name s =>
          have e1 : instEntries n (q :: rest) =
              ((Ids.inst q.1, PName.name s) :: (instEntries n rest).1,
                (instEntries n rest).2) := by
            simp [instEntries, hs, hd]
          have e2 : specUnnamedInstKeys (q :: rest) =
              specUnnamedInstKeys rest := by
            simp [specUnnamedInstKeys, hs, hd]
          rw [e1, e2]
          exact ⟨by simp [numEntry, (ih n).1], (ih n).2⟩
        | num m =>
          have e1 : instEntries n (q :: rest) =
              ((Ids.inst q.1, PName.num n) :: (instEntries (n + 1) rest).1,
                (instEntries (n + 1) rest).2) := by
            simp [instEntries, hs, hd]
          have e2 : specUnnamedInstKeys (q :: rest) =
              Ids.inst q.1 :: specUnnamedInstKeys rest := by
            simp [specUnnamedInstKeys, hs, hd]
          rw [e1, e2]
          refine ⟨by simp [numEntry, numberedFrom, (ih (n + 1)).1], ?_⟩
          have := (ih (n + 1)).2
          simp only [this, List.length_cons]
          omega

theorem blockLabelEntry_filterMap (n id : Nat) (b : PBlock) :
    (blockLabelEntry n id b).1.filterMap numEntry =
        numberedFrom n (specUnnamedBlockKey id b) ∧
      (blockLabelEntry n id b).2 = n + (specUnnamedBlockKey id b).length := by
  cases hb : b.name with
  | none => simp [blockLabelEntry, specUnnamedBlockKey, hb, numEntry,
      numberedFrom]
  | some nm =>
    cases nm with
    | name s => simp [blockLabelEntry, specUnnamedBlockKey, hb, nameToStr,
        numEntry, numberedFrom]
    | num m => simp [blockLabelEntry, specUnnamedBlockKey, hb, nameToStr,
        numEntry, numberedFrom]

theorem blockEntries_filterMap (bs : List (Nat × PBlock)) : ∀ (n : Nat),
    (blockEntries n bs).1.filterMap numEntry =
        numberedFrom n (specUnnamedBlockListKeys bs) ∧
      (blockEntries n bs).2 = n + (specUnnamedBlockListKeys bs).length := by
  induction bs with
  | nil => intro n; simp [blockEntries, specUnnamedBlockListKeys,
      numberedFrom]
  | cons q rest ih =>
    intro n
    simp only [blockEntries, specUnnamedBlockListKeys]
    have hl := blockLabelEntry_filterMap n q.1 q.2
    have hi := instEntries_filterMap q.2.insts (blockLabelEntry n q.1 q.2).2
    have hr := ih (instEntries (blockLabelEntry n q.1 q.2).2 q.2.insts).2
    have h2 : (instEntries (blockLabelEntry n q.1 q.2).2 q.2.insts).2 =
        n + (specUnnamedBlockKey q.1 q.2).length +
          (specUnnamedInstKeys q.2.insts).length := by
      rw [hi.2, hl.2]
    constructor
    · rw [List.filterMap_append, List.filterMap_append, hl.1, hi.1, hr.1,
        numberedFrom_append, numberedFrom_append, h2, hl.2,
        List.length_append, Nat.add_assoc]
    · rw [hr.2, h2]
      simp only [List.length_append]
      omega

theorem funEntries_filterMap (f : PFunction) :
    (funEntries f).filterMap numEntry =
      numberedFrom 0 (specUnnamedKeys f) := by
  have ha := argEntries_filterMap f.params 0 0
  have hb := blockEntries_filterMap f.blocks (argEntries 0 0 f.params).2
  rw [funEntries, specUnnamedKeys, List.filterMap_append, ha.1, hb.1,
    numberedFrom_append, ha.2, Nat.zero_add]

theorem plookup_eq_none_iff (k : Ids) (l : List (Ids × PName)) :
    plookup k l = none ↔ k ∉ l.map Prod.fst := by
  induction l with
  | nil => simp [plookup]
  | cons p ps ih =>
    by_cases h : p.1 = k
    · simp [plookup, h]
    · simp only [plookup, if_neg h, List.map_cons, List.mem_cons, ih]
      constructor
      · intro hn
        rintro (h1 | h2)
        · exact h h1.symm
        · exact hn h2
      · intro hn
        intro h2
        exact hn (Or.inr h2)

theorem plookup_mem_of_nodup (l : List (Ids × PName))
    (hnd : (l.map Prod.fst).Nodup) (k : Ids) (v : PName)
    (hm : (k, v) ∈ l) : plookup k l = some v := by
  induction l with
  | nil => exact absurd hm (List.not_mem_nil _)
  | cons p ps ih =>
    rcases List.mem_cons.mp hm with h1 | h2
    · rw [← h1]
      simp [plookup]
    · have hnd2 := hnd
      rw [List.map_cons] at hnd2
      have hcons := List.nodup_cons.mp hnd2
      have hkmem : k ∈ ps.map Prod.fst :=
        List.mem_map.mpr ⟨(k, v), h2, rfl⟩
      have hne : p.1 ≠ k := fun he => hcons.1 (by rw [he]; exact hkmem)
      simp only [plookup, if_neg hne]
      exact ih hcons.2 h2

theorem argEntries_keys (ps : List PParam) : ∀ (n i : Nat),
    (argEntries n i ps).1.map Prod.fst = argKeysFrom i ps := by
  induction ps with
  | nil => intro n i; rfl
  | cons p ps ih =>
    intro n i
    cases hp : p.name with
    | name s =>
      have e1 : argEntries n i (p :: ps) =
          ((Ids.arg i, PName.name s) :: (argEntries n (i + 1) ps).1,
            (argEntries n (i + 1) ps).2) := by
        simp [argEntries, hp, nameToStr]
      rw [e1]
      simp [argKeysFrom, ih n (i + 1)]
    | num m =>
      have e1 : argEntries n i (p :: ps) =
          ((Ids.arg i, PName.num n) :: (argEntries (n + 1) (i + 1) ps).1,
            (argEntries (n + 1) (i + 1) ps).2) := by
        simp [argEntries, hp, nameToStr]
      rw [e1]
      simp [argKeysFrom, ih (n + 1) (i + 1)]

theorem instEntries_keys (l : List (Nat × PInst)) : ∀ (n : Nat),
    (instEntries n l).1.map Prod.fst =
      (l.filter fun r => !instSkipped r.2).map fun r => Ids.inst r.1 := by
  induction l with
  | nil => intro n; rfl
  | cons q rest ih =>
    intro n
    cases hs : instSkipped q.2 with
    | true =>
      have e1 : instEntries n (q :: rest) = instEntries n rest := by
        simp [instEntries, hs]
      rw [e1, ih n]
      simp [List.filter_cons, hs]
    | false =>
      cases hd : q.2.dest with
      | none =>
        have e1 : instEntries n (q :: rest) =
            ((Ids.inst q.1, PName.num n) :: (instEntries (n + 1) rest).1,
              (instEntries (n + 1) rest).2) := by
          simp [instEntries, hs, hd]
        rw [e1]
        simp [List.filter_cons, hs, ih (n + 1)]
      | some nm =>
        cases nm with
        | name s =>
          have e1 : instEntries n (q :: rest) =
              ((Ids.inst q.1, PName.name s) :: (instEntries n rest).1,
                (instEntries n rest).2) := by
            simp [instEntries, hs, hd]
          rw [e1]
          simp [List.filter_cons, hs, ih n]
        | num m =>
          have e1 : instEntries n (q :: rest) =
              ((Ids.inst q.1, PName.num n) :: (instEntries (n + 1) rest).1,
                (instEntries (n + 1) rest).2) := by
            simp [instEntries, hs, hd]
          rw [e1]
          simp [List.filter_cons, hs, ih (n + 1)]

theorem blockLabelEntry_key (n id : Nat) (b : PBlock) :
    (blockLabelEntry n id b).1.map Prod.fst = [Ids.block id] := by
  cases hb : b.name with
  | none => simp [blockLabelEntry, hb]
  | some nm =>
    cases nm with
    | name s => simp [blockLabelEntry, hb, nameToStr]
    | num m => simp [blockLabelEntry, hb, nameToStr]

theorem blockEntries_keys (bs : List (Nat × PBlock)) : ∀ (n : Nat),
    (blockEntries n bs).1.map Prod.fst =
      bs.flatMap fun q => Ids.block q.1 ::
        ((q.2.insts.filter fun r => !instSkipped r.2).map
          fun r => Ids.inst r.1) := by
  induction bs with
  | nil => intro n; rfl
  | cons q rest ih =>
    intro n
    simp only [blockEntries, List.flatMap_cons, List.map_append]
    rw [blockLabelEntry_key, instEntries_keys, ih]
    simp

theorem flatMap_pointwise_sublist {α β : Type} (g1 g2 : α → List β)
    (h : ∀ a, List.Sublist (g1 a) (g2 a)) :
    ∀ l : List α, List.Sublist (l.flatMap g1) (l.flatMap g2) := by
  intro l
  induction l with
  | nil => simp
  | cons a l ih =>
    simp only [List.flatMap_cons]
    exact (h a).append ih

theorem funEntries_keys_sublist (f : PFunction) :
    List.Sublist ((funEntries f).map Prod.fst) (specAllKeys f) := by
  rw [funEntries, List.map_append, argEntries_keys, blockEntries_keys,
    specAllKeys]
  refine (List.Sublist.refl _).append ?_
  refine flatMap_pointwise_sublist _ _ ?_ f.blocks
  intro q
  exact List.Sublist.cons₂ _ ((List.filter_sublist _).map _)

theorem argKeysFrom_mem (ps : List PParam) : ∀ (i : Nat) (k : Ids),
    k ∈ argKeysFrom i ps → ∃ j, k = Ids.arg j := by
  induction ps with
  | nil => intro i k h; exact absurd h (List.not_mem_nil _)
  | cons p ps ih =>
    intro i k h
    rcases List.mem_cons.mp h with h1 | h2
    · exact ⟨i, h1⟩
    · exact ih (i + 1) k h2

/-- C7: the naming walk of `FunctionAsmPrinter::print` re-indexes every
unnamed entity with one deterministic left-to-right walk — arguments first,
then, per block in layout order, the block label and then the block's
instructions — assigning the k-th unnamed entity the name `Name::Number(k)`;
and an instruction receives no entry in `indexes` (hence no result name)
exactly when its opcode is store, br, condbr, ret or resume, or its call
result type is void. -/
theorem printer_renumber_walk (f : PFunction)
    (hnd : (specAllKeys f).Nodup)
    (huniq : ∀ q ∈ f.blocks, ∀ q2 ∈ f.blocks, ∀ r ∈ q.2.insts,
      ∀ r2 ∈ q2.2.insts, r.1 = r2.1 → r.2 = r2.2) :
    (∀ (k : Nat) (h : k < (specUnnamedKeys f).length),
      lookupIdx (assignNames f) ((specUnnamedKeys f).get ⟨k, h⟩) =
        some (PName.num k)) ∧
    (∀ bid b, (bid, b) ∈ f.blocks → ∀ iid inst, (iid, inst) ∈ b.insts →
      (lookupIdx (assignNames f) (Ids.inst iid) = none ↔
        instSkipped inst = true)) := by
  have hkeysnd : ((funEntries f).map Prod.fst).Nodup :=
    (funEntries_keys_sublist f).nodup hnd
  constructor
  · intro k h
    simp only [lookupIdx]
    rw [assignNames_indexes]
    apply plookup_mem_of_nodup
    · rw [List.map_reverse]
      exact List.nodup_reverse.mpr hkeysnd
    · rw [List.mem_reverse]
      have h1 := numberedFrom_get (specUnnamedKeys f) 0 k h
      rw [Nat.zero_add] at h1
      rw [← funEntries_filterMap] at h1
      obtain ⟨a, ha, hEq⟩ := List.mem_filterMap.mp h1
      cases hv : a.2 with
      | name s => simp [numEntry, hv] at hEq
      | num m =>
        simp only [numEntry, hv] at hEq
        have he : a = ((specUnnamedKeys f).get ⟨k, h⟩, PName.num k) :=
          Option.some.inj hEq
        rw [← he]
        exact ha
  · intro bid b hb iid inst hin
    simp only [lookupIdx]
    rw [assignNames_indexes, plookup_eq_none_iff, List.map_reverse,
      List.mem_reverse, funEntries, List.map_append, argEntries_keys,
      blockEntries_keys]
    constructor
    · intro hno
      by_contra hsk
      have hskf : instSkipped inst = false := by
        cases hx : instSkipped inst with
        | true => exact absurd hx hsk
        | false => rfl
      apply hno
      refine List.mem_append.mpr (Or.inr ?_)
      refine List.mem_flatMap.mpr ⟨(bid, b), hb, ?_⟩
      refine List.mem_cons_of_mem _ ?_
      refine List.mem_map.mpr ⟨(iid, inst), ?_, rfl⟩
      exact List.mem_filter.mpr ⟨hin, by simp [hskf]⟩
    · intro hsk hmem
      rcases List.mem_append.mp hmem with h1 | h2
      · obtain ⟨j, hj⟩ := argKeysFrom_mem f.params 0 _ h1
        exact Ids.noConfusion hj
      · obtain ⟨q, hq, hkey⟩ := List.mem_flatMap.mp h2
        rcases List.mem_cons.mp hkey with h3 | h4
        · exact Ids.noConfusion h3
        · obtain ⟨r, hr, hre⟩ := List.mem_map.mp h4
          have hrf := List.mem_filter.mp hr
          have hid : r.1 = iid := by
            injection hre
          have hr2 : r.2 = inst :=
            huniq q hq (bid, b) hb r hrf.1 (iid, inst) hin hid
          have hskf := hrf.2
          rw [hr2, hsk] at hskf
          simp at hskf

/-- Closed witness for the C7 theorem at `exPrintFn`: the unnamed entities
in walk order — argument 1, instruction 10, block 1, instruction 15 — get
numbers 0, 1, 2, 3, and the store instruction 11 gets no result name. -/
theorem printer_renumber_walk_witness :
    (specAllKeys exPrintFn).Nodup ∧
    lookupIdx (assignNames exPrintFn) (Ids.arg 1) = some (PName.num 0) ∧
    lookupIdx (assignNames exPrintFn) (Ids.inst 10) = some (PName.num 1) ∧
    lookupIdx (assignNames exPrintFn) (Ids.block 1) = some (PName.num 2) ∧
    lookupIdx (assignNames exPrintFn) (Ids.inst 15) = some (PName.num 3) ∧
    (lookupIdx (assignNames exPrintFn) (Ids.inst 11) = none ↔
      instSkipped ⟨.store, false, none⟩ = true) := by
  have h := printer_renumber_walk exPrintFn (by decide) (by decide)
  refine ⟨by decide, ?_, ?_, ?_, ?_, ?_⟩
  · exact h.1 0 (by decide)
  · exact h.1 1 (by decide)
  · exact h.1 2 (by decide)
  · exact h.1 3 (by decide)
  · exact h.2 0 exPrintBlock0 (by decide) 11 ⟨.store, false, none⟩
      (by decide)

end Prt

namespace Psr

theorem gepLoop_types_args : ∀ (fuel : Nat) (s : List Char)
    (inbounds : Bool) (tys : List LType) (args : List ConstantData)
    (rest : List Char) (out : ConstantData),
    gepLoop fuel s inbounds tys args = .ok rest out →
    ∃ tys2 args2, out = .exprGep inbounds tys2 args2 ∧
      tys2.length + args.length = args2.length + tys.length := by
  intro fuel
  induction fuel with
  | zero =>
    intro s inbounds tys args rest out h
    exact PRes.noConfusion h
  | succ fuel ih =>
    intro s inbounds tys args rest out h
    simp only [gepLoop] at h
    split at h
    · exact PRes.noConfusion h
    · split at h
      · split at h
        · obtain ⟨tys2, args2, he, hlen⟩ := ih _ _ _ _ _ _ h
          refine ⟨tys2, args2, he, ?_⟩
          simp only [List.length_append, List.length_cons,
            List.length_nil] at hlen
          omega
        · split at h
          · injection h with h1 h2
            refine ⟨_, _, h2.symm, ?_⟩
            simp only [List.length_append, List.length_cons,
              List.length_nil]
            omega
          · obtain ⟨tys2, args2, he, hlen⟩ := ih _ _ _ _ _ _ h
            refine ⟨tys2, args2, he, ?_⟩
            simp only [List.length_append, List.length_cons,
              List.length_nil] at hlen
            omega
      · exact PRes.noConfusion h
      · exact PRes.noConfusion h
      · exact PRes.noConfusion h

/-- C8 (amended): a `getelementptr` in constant position is parsed
recursively and stored unreduced as an `Expr::GetElementPtr` whose type
chain holds exactly one more entry than its constant-argument list — the
source type plus one type per argument — so the claim's example carries
four types and three constant arguments, not three and two. -/
theorem gep_constant_full_type_chain (fuel : Nat) (s rest : List Char)
    (out : ConstantData)
    (h : parse_constant_getelementptr fuel s = .ok rest out) :
    ∃ inbounds tys args, out = .exprGep inbounds tys args ∧
      tys.length = args.length + 1 := by
  cases fuel with
  | zero => exact PRes.noConfusion h
  | succ fuel =>
    simp only [parse_constant_getelementptr] at h
    repeat' split at h
    all_goals
      first
        | exact PRes.noConfusion h
        | (obtain ⟨tys2, args2, he, hlen⟩ :=
            gepLoop_types_args _ _ _ _ _ _ _ h
           refine ⟨_, tys2, args2, he, ?_⟩
           simp only [List.length_cons, List.length_nil] at hlen
           omega)

/-- Closed witness for the C8 theorem at the claim's example: the parse
succeeds, consumes the whole input, and yields a type chain one longer
than the argument list. -/
theorem gep_constant_full_type_chain_witness :
    parse_constant_getelementptr 64 exGepInput = .ok [] exGepResult ∧
    ∃ inbounds tys args, exGepResult = .exprGep inbounds tys args ∧
      tys.length = args.length + 1 :=
  ⟨rfl, gep_constant_full_type_chain 64 exGepInput [] exGepResult rfl⟩

/-- C8 counterexample: parsing the claim's example through the constant
parser yields an `Expr::GetElementPtr` carrying FOUR types and THREE
constant arguments, not three types and two constant arguments. -/
theorem parse_gep_three_types_two_args_cex :
    parse_constant 64 exGepInput (.ptr (.int 8)) = .ok [] exGepResult ∧
    constTysLen exGepResult = 4 ∧ constArgsLen exGepResult = 3 ∧
    ¬(constTysLen exGepResult = 3) ∧ ¬(constArgsLen exGepResult = 2) :=
  ⟨rfl, rfl, rfl, by decide, by decide⟩

/-- C9 counterexample: on the input `foo` — an unsupported top-level form —
module parsing neither produces a module nor returns a structured parse
error; it hits the `todo!` panic carrying the remaining source. -/
theorem module_parse_structured_error_cex :
    moduleParse 9 "foo".data emptyPModule = .panicTodo "foo".data ∧
    ∀ m : PModule,
      TopOutcome.panicTodo "foo".data ≠ TopOutcome.okModule m ∧
        TopOutcome.panicTodo "foo".data ≠ TopOutcome.err :=
  ⟨rfl, fun _ => ⟨fun h => TopOutcome.noConfusion h,
    fun h => TopOutcome.noConfusion h⟩⟩

/-- C9 (amended): when the remaining input is nonempty and none of the
eight top-level alternatives accepts it, `module::parser::parse` panics via
`todo!(\x22unsupported syntax at {:?}\x22, source)` with the remaining
source instead of returning a structured error; indeed the loop can never
produce a structured error at all, since every sub-parser failure is caught
by `if let Ok` and only the never-failing whitespace scan is propagated
with `?`. -/
theorem module_parse_unsupported_todo (fuel : Nat) (s : List Char)
    (m : PModule)
    (hne : (skipSpaces s).isEmpty = false)
    (h1 : parse_source_filename (skipSpaces s) = none)
    (h2 : parse_target_datalayout (skipSpaces s) = none)
    (h3 : parse_target_triple (skipSpaces s) = none)
    (h4 : parse_attribute_group (skipSpaces s) = .fail)
    (h5 : parse_local_type fuel (skipSpaces s) = none)
    (h6 : globalVarParse (skipSpaces s) = none)
    (h7 : functionParse (skipSpaces s) = none)
    (h8 : metadataParse (skipSpaces s) = none) :
    moduleParse (fuel + 1) s m = .panicTodo (skipSpaces s) ∧
    ∀ (fuel2 : Nat) (s2 : List Char) (m2 : PModule),
      moduleParse fuel2 s2 m2 ≠ TopOutcome.err := by
  constructor
  · simp [moduleParse, hne, h1, h2, h3, h4, h5, h6, h7, h8]
  · intro fuel2
    induction fuel2 with
    | zero =>
      intro s2 m2 h
      exact TopOutcome.noConfusion h
    | succ fuel2 ih =>
      intro s2 m2 h
      simp only [moduleParse] at h
      repeat' split at h
      all_goals
        first
          | exact TopOutcome.noConfusion h
          | exact ih _ _ h

/-- Closed witness for the C9 theorem on the input `foo`: no alternative
accepts it and the outcome is the `todo!` panic, never a structured
error. -/
theorem module_parse_unsupported_todo_witness :
    (skipSpaces "foo".data).isEmpty = false ∧
    moduleParse 9 "foo".data emptyPModule =
      .panicTodo (skipSpaces "foo".data) ∧
    ∀ (fuel2 : Nat) (s2 : List Char) (m2 : PModule),
      moduleParse fuel2 s2 m2 ≠ TopOutcome.err := by
  have h := module_parse_unsupported_todo 8 "foo".data emptyPModule rfl rfl
    rfl rfl rfl rfl rfl rfl rfl
  exact ⟨rfl, h.1, h.2⟩

end Psr

end Vicis
